import Mathlib

/-!
Shallow embedding of the cross-chain Aave rebalancing core of the `reil`
repository, together with proofs about it.

The embedded code lives in:
* `src/provider/aave/healthFactor.ts` — position-health arithmetic
  (`isPositionUnhealthy`, `calculateCollateralNeeded`,
  `calculateMaxWithdrawable`);
* `src/provider/aave/optimization.ts` — `optimizeRebalanceDistribution`;
* `src/provider/aave/rebalance.ts` — `crossChainRebalanceAavePositions`,
  whose pure decision core (classification guards, greedy source/destination
  matching, voucher grouping, destination ordering and remainder chaining)
  is embedded here with the external effects (oracle conversions, RPC reads)
  taken as the identity, i.e. amounts stay in USD-base units;
* `src/provider/aave/index.ts` — an older variant of
  `calculateMaxWithdrawable` that guards against a zero liquidation
  threshold.

JavaScript `bigint` values are modelled as `Int`; `bigint` division
truncates toward zero, which is `Int.tdiv`.  A JavaScript `bigint` division
whose divisor is `0` throws a `RangeError`; fallible computations are
therefore embedded as `Option`-valued functions with `none` for the throw.
JavaScript `Map` objects (insertion-ordered, with `set` replacing in place)
are modelled as association lists `List (Int × Int)`.
-/

namespace Reil

/-- Position snapshot, from `src/provider/aave/types.ts` (`AavePosition`).
The `userAddress` field is carried but never inspected by the engine. -/
structure AavePosition where
  chainId : Int
  healthFactor : Int
  totalCollateralBase : Int
  totalDebtBase : Int
  availableBorrowsBase : Int
  currentLiquidationThreshold : Int
  ltv : Int
  userAddress : String
deriving DecidableEq

/-- On-chain validity of a snapshot: all amounts non-negative and the
sentinel invariant (`healthFactor == 0` iff `totalDebtBase == 0`). -/
def Valid (p : AavePosition) : Prop :=
  0 ≤ p.totalCollateralBase ∧ 0 ≤ p.totalDebtBase ∧
    0 ≤ p.currentLiquidationThreshold ∧ 0 ≤ p.healthFactor ∧
    (p.healthFactor = 0 ↔ p.totalDebtBase = 0)

instance (p : AavePosition) : Decidable (Valid p) := by
  unfold Valid; infer_instance

/-- The default minimum health factor, parseUnits of 1.2 at 18 decimals. -/
def HF12 : Int := 1200000000000000000

/-- The association-list model of a JavaScript `Map<number, bigint>`. -/
abbrev AmountMap := List (Int × Int)

/-- Lookup m.get(k) on a JavaScript Map. -/
def mapGet : AmountMap → Int → Option Int
  | [], _ => none
  | kv :: m, k => if kv.1 = k then some kv.2 else mapGet m k

/-- Lookup with default, the m.get(k)-or-0n pattern of the source. -/
def mapGetD (m : AmountMap) (k : Int) : Int := (mapGet m k).getD 0

/-- Update m.set(k, v) on a JavaScript Map: replaces in place, else appends. -/
def mapSet : AmountMap → Int → Int → AmountMap
  | [], k, v => [(k, v)]
  | kv :: m, k, v => if kv.1 = k then (k, v) :: m else kv :: mapSet m k v

/-- Sum of the values of a map (`Array.from(m.values()).reduce(+)`). -/
def mapSum (m : AmountMap) : Int := (m.map Prod.snd).sum

/-- Stable insertion used to model `Array.prototype.sort` with a JavaScript
comparator: the new element passes every already-placed element `b` with
`cmp b a <= 0` and stops in front of the first one with `cmp b a > 0`. -/
def stableInsert (cmp : α → α → Int) (a : α) : List α → List α
  | [] => [a]
  | b :: l => if 0 < cmp b a then a :: b :: l else b :: stableInsert cmp a l

/-- Sorting a copied array with a comparator, modelled as a stable insertion sort. -/
def sortByCmp (cmp : α → α → Int) (l : List α) : List α :=
  l.foldl (fun acc a => stableInsert cmp a acc) []

/-- Comparator sorting positions ascending by health factor, worst first,
with the sentinel `0` sorting last (`optimization.ts` lines 42-46 and
`rebalance.ts` lines 91-95). -/
def cmpUnhealthyAsc (a b : AavePosition) : Int :=
  if a.healthFactor = 0 then 1
  else if b.healthFactor = 0 then -1
  else if a.healthFactor < b.healthFactor then -1 else 1

/-- Comparator sorting positions descending by health factor, most headroom
first, with the sentinel `0` sorting last (`optimization.ts` lines 68-73
and 99-104, `rebalance.ts` lines 108-114). -/
def cmpHealthyDesc (a b : AavePosition) : Int :=
  if a.healthFactor = 0 then 1
  else if b.healthFactor = 0 then -1
  else if b.healthFactor < a.healthFactor then -1 else 1

/-- The function isPositionUnhealthy from src/provider/aave/healthFactor.ts. -/
def isPositionUnhealthy (position : AavePosition) (threshold : Int) : Bool :=
  if position.healthFactor = 0 then false
  else position.healthFactor < threshold

/-- The function calculateCollateralNeeded from src/provider/aave/healthFactor.ts.
`none` models the `RangeError` a JavaScript `bigint` division by zero
throws (liquidation threshold `0` with debt outstanding). -/
def calculateCollateralNeeded (position : AavePosition)
    (targetHealthFactor : Int) : Option Int :=
  if position.totalDebtBase = 0 ∨ position.healthFactor = 0 then some 0
  else
    let liquidationThresholdScaled :=
      position.currentLiquidationThreshold * 10 ^ 14
    if liquidationThresholdScaled = 0 then none
    else
      let targetCollateral :=
        (targetHealthFactor * position.totalDebtBase).tdiv
          liquidationThresholdScaled
      some (if position.totalCollateralBase < targetCollateral then
        targetCollateral - position.totalCollateralBase else 0)

/-- The function calculateMaxWithdrawable from src/provider/aave/healthFactor.ts:
half the collateral when debt-free, otherwise collateral above the minimum
required for `minHealthFactor`; no guard on a zero liquidation threshold,
so that case is the thrown `RangeError`, modelled as `none`. -/
def calculateMaxWithdrawable (position : AavePosition)
    (minHealthFactor : Int) : Option Int :=
  if position.totalDebtBase = 0 ∨ position.healthFactor = 0 then
    some (position.totalCollateralBase.tdiv 2)
  else
    let liquidationThresholdScaled :=
      position.currentLiquidationThreshold * 10 ^ 14
    if liquidationThresholdScaled = 0 then none
    else
      let minCollateralNeeded :=
        (minHealthFactor * position.totalDebtBase).tdiv
          liquidationThresholdScaled
      some (if minCollateralNeeded < position.totalCollateralBase then
        position.totalCollateralBase - minCollateralNeeded else 0)

/-- The older `calculateMaxWithdrawable` from `src/provider/aave/index.ts`
(lines 360-397), which checks `currentLiquidationThreshold === 0n` and
returns `0` instead of dividing. -/
def calculateMaxWithdrawableIdx (position : AavePosition)
    (minHealthFactor : Int) : Int :=
  if position.totalDebtBase = 0 ∨ position.healthFactor = 0 then
    position.totalCollateralBase.tdiv 2
  else if position.currentLiquidationThreshold = 0 then 0
  else
    let minCollateralNeeded :=
      (minHealthFactor * position.totalDebtBase).tdiv
        (position.currentLiquidationThreshold * 10 ^ 14)
    if minCollateralNeeded < position.totalCollateralBase then
      position.totalCollateralBase - minCollateralNeeded
    else 0

/-- The per-position loop of `optimizeRebalanceDistribution` that fills
`needsByChain` or `availableByChain`: `m.set(position.chainId, f position)`,
propagating a thrown division error. -/
def buildByChain (f : AavePosition → Option Int) (m : AmountMap) :
    List AavePosition → Option AmountMap
  | [] => some m
  | p :: ps =>
    match f p with
    | none => none
    | some v => buildByChain f (mapSet m p.chainId v) ps

/-- Shortfall-branch supplies loop of `optimizeRebalanceDistribution`
(`optimization.ts` lines 52-65): allocation is
`(needed * totalAvailable) / totalNeeded` when `totalAvailable > 0n`,
recorded only when positive, with `remainingNeeded` updated alongside. -/
def shortfallSupplies (totalAvailable totalNeeded : Int)
    (remainingNeeded supplies : AmountMap) :
    List AavePosition → AmountMap × AmountMap
  | [] => (supplies, remainingNeeded)
  | pos :: rest =>
    let needed := mapGetD remainingNeeded pos.chainId
    if needed = 0 then
      shortfallSupplies totalAvailable totalNeeded remainingNeeded supplies rest
    else
      let allocation :=
        if 0 < totalAvailable then (needed * totalAvailable).tdiv totalNeeded
        else 0
      if 0 < allocation then
        shortfallSupplies totalAvailable totalNeeded
          (mapSet remainingNeeded pos.chainId (needed - allocation))
          (mapSet supplies pos.chainId (mapGetD supplies pos.chainId + allocation))
          rest
      else
        shortfallSupplies totalAvailable totalNeeded remainingNeeded supplies rest

/-- Shortfall-branch withdrawal loop (`optimization.ts` lines 75-86): drain
each healthy chain up to its remaining availability until
`remainingToWithdraw` is exhausted, updating `remainingAvailable`. -/
def shortfallWithdrawals (remainingAvailable : AmountMap)
    (remainingToWithdraw : Int) (withdrawals : AmountMap) :
    List AavePosition → AmountMap
  | [] => withdrawals
  | pos :: rest =>
    if remainingToWithdraw = 0 then withdrawals
    else
      let available := mapGetD remainingAvailable pos.chainId
      if available = 0 then
        shortfallWithdrawals remainingAvailable remainingToWithdraw withdrawals rest
      else
        let withdrawAmount :=
          if available < remainingToWithdraw then available
          else remainingToWithdraw
        shortfallWithdrawals
          (mapSet remainingAvailable pos.chainId (available - withdrawAmount))
          (remainingToWithdraw - withdrawAmount)
          (mapSet withdrawals pos.chainId
            (mapGetD withdrawals pos.chainId + withdrawAmount))
          rest

/-- Sufficient-branch supplies loop (`optimization.ts` lines 89-94):
`supplies.set(chainId, needed)` for every entry with `needed > 0n`. -/
def sufficientSupplies (supplies : AmountMap) : AmountMap → AmountMap
  | [] => supplies
  | kv :: rest =>
    sufficientSupplies
      (if 0 < kv.2 then mapSet supplies kv.1 kv.2 else supplies) rest

/-- Sufficient-branch withdrawal loop (`optimization.ts` lines 106-116):
like the shortfall one but reading `availableByChain` without updating it. -/
def sufficientWithdrawals (availableByChain : AmountMap)
    (remainingToWithdraw : Int) (withdrawals : AmountMap) :
    List AavePosition → AmountMap
  | [] => withdrawals
  | pos :: rest =>
    if remainingToWithdraw = 0 then withdrawals
    else
      let available := mapGetD availableByChain pos.chainId
      if available = 0 then
        sufficientWithdrawals availableByChain remainingToWithdraw withdrawals rest
      else
        let withdrawAmount :=
          if available < remainingToWithdraw then available
          else remainingToWithdraw
        sufficientWithdrawals availableByChain
          (remainingToWithdraw - withdrawAmount)
          (mapSet withdrawals pos.chainId
            (mapGetD withdrawals pos.chainId + withdrawAmount))
          rest

/-- The optimizer optimizeRebalanceDistribution from src/provider/aave/optimization.ts,
returning `withdrawals` and `supplies`; `none` models a thrown division
error from the per-position health arithmetic. -/
def optimizeRebalanceDistribution (healthyPositions unhealthyPositions :
    List AavePosition) (minHealthFactor : Int) :
    Option (AmountMap × AmountMap) := do
  let needsByChain ←
    buildByChain (fun p => calculateCollateralNeeded p minHealthFactor) []
      unhealthyPositions
  let availableByChain ←
    buildByChain (fun p => calculateMaxWithdrawable p minHealthFactor) []
      healthyPositions
  let totalNeeded := mapSum needsByChain
  let totalAvailable := mapSum availableByChain
  if totalAvailable < totalNeeded then
    let sortedUnhealthy := sortByCmp cmpUnhealthyAsc unhealthyPositions
    let (supplies, _) :=
      shortfallSupplies totalAvailable totalNeeded needsByChain []
        sortedUnhealthy
    let sortedHealthy := sortByCmp cmpHealthyDesc healthyPositions
    let withdrawals :=
      shortfallWithdrawals availableByChain totalAvailable [] sortedHealthy
    pure (withdrawals, supplies)
  else
    let supplies := sufficientSupplies [] needsByChain
    let sortedHealthy := sortByCmp cmpHealthyDesc healthyPositions
    let withdrawals :=
      sufficientWithdrawals availableByChain totalNeeded [] sortedHealthy
    pure (withdrawals, supplies)

/-- A concrete source→destination transfer (a voucher request), as pushed
onto `voucherRequests` in `rebalance.ts`. -/
structure TransferInstruction where
  sourceChainId : Int
  destinationChainId : Int
  amount : Int
deriving DecidableEq

/-- Inner loop of the greedy matcher (`rebalance.ts` lines 116-140): drain
the sorted healthy sources into one destination until its remaining need is
met, skipping the destination chain itself and exhausted sources. -/
def matchInner (destChainId : Int) (acc : List TransferInstruction)
    (remainingWithdrawals : AmountMap) (remainingNeed : Int) :
    List AavePosition → List TransferInstruction × AmountMap × Int
  | [] => (acc, remainingWithdrawals, remainingNeed)
  | healthyPos :: rest =>
    if remainingNeed = 0 then (acc, remainingWithdrawals, remainingNeed)
    else if healthyPos.chainId = destChainId then
      matchInner destChainId acc remainingWithdrawals remainingNeed rest
    else
      let available := mapGetD remainingWithdrawals healthyPos.chainId
      if available = 0 then
        matchInner destChainId acc remainingWithdrawals remainingNeed rest
      else
        let transferAmount :=
          if available < remainingNeed then available else remainingNeed
        if 0 < transferAmount then
          matchInner destChainId
            (acc ++ [⟨healthyPos.chainId, destChainId, transferAmount⟩])
            (mapSet remainingWithdrawals healthyPos.chainId
              (available - transferAmount))
            (remainingNeed - transferAmount) rest
        else
          matchInner destChainId acc remainingWithdrawals remainingNeed rest

/-- Outer loop of the greedy matcher (`rebalance.ts` lines 101-140): visit
destinations worst-health-first; for each, re-filter and re-sort the healthy
sources that still have withdrawal budget and run the inner loop. -/
def matchOuter (healthyPositions : List AavePosition)
    (acc : List TransferInstruction)
    (remainingSupplies remainingWithdrawals : AmountMap) :
    List AavePosition → List TransferInstruction × AmountMap × AmountMap
  | [] => (acc, remainingSupplies, remainingWithdrawals)
  | pos :: rest =>
    let needed := mapGetD remainingSupplies pos.chainId
    if needed = 0 then
      matchOuter healthyPositions acc remainingSupplies remainingWithdrawals rest
    else
      let sortedHealthy :=
        sortByCmp cmpHealthyDesc
          (healthyPositions.filter
            (fun p => 0 < mapGetD remainingWithdrawals p.chainId))
      match matchInner pos.chainId acc remainingWithdrawals needed sortedHealthy with
      | (accNew, rwNew, remainingNeed) =>
        matchOuter healthyPositions accNew
          (mapSet remainingSupplies pos.chainId remainingNeed) rwNew rest

/-- The voucher-request list built by `crossChainRebalanceAavePositions`
(`rebalance.ts` lines 91-140) from a distribution plan. -/
def matchTransfers (healthyPositions unhealthyPositions : List AavePosition)
    (withdrawals supplies : AmountMap) : List TransferInstruction :=
  (matchOuter healthyPositions [] supplies withdrawals
    (sortByCmp cmpUnhealthyAsc unhealthyPositions)).1

/-- Association-list update for `vouchersBySourceChain`: append the voucher
to the source's list, creating the entry on first use. -/
def vouchersAppend (m : List (Int × List (Int × Int))) (k : Int)
    (v : Int × Int) : List (Int × List (Int × Int)) :=
  match m with
  | [] => [(k, [v])]
  | kv :: rest =>
    if kv.1 = k then (k, kv.2 ++ [v]) :: rest
    else kv :: vouchersAppend rest k v

/-- Grouping step (`rebalance.ts` lines 146-157): total withdrawal per
source chain and the per-source voucher lists, in insertion order. -/
def groupVouchers (l : List TransferInstruction) :
    AmountMap × List (Int × List (Int × Int)) :=
  l.foldl
    (fun st t =>
      (mapSet st.1 t.sourceChainId
        (mapGetD st.1 t.sourceChainId + t.amount),
       vouchersAppend st.2 t.sourceChainId
         (t.destinationChainId, t.amount)))
    ([], [])

/-- Destination-priority comparator used when ordering a source's matched
destinations (`rebalance.ts` lines 246-254 and 277-285): unresolvable
chains last, then the sentinel health factor first, then ascending. -/
def cmpVoucherDest (unhealthyPositions : List AavePosition)
    (a b : Int × Int) : Int :=
  match unhealthyPositions.find? (fun p => p.chainId = a.1),
      unhealthyPositions.find? (fun p => p.chainId = b.1) with
  | none, _ => 1
  | some _, none => -1
  | some posA, some posB =>
    if posA.healthFactor = 0 then -1
    else if posB.healthFactor = 0 then 1
    else if posA.healthFactor < posB.healthFactor then -1 else 1

/-- Step 2 of the chaining (`rebalance.ts` lines 274-287): for each source,
the ordered list of destination chains its withdrawn amount will visit. -/
def chainOrderBySource (unhealthyPositions : List AavePosition)
    (vouchersBySourceChain : List (Int × List (Int × Int))) :
    List (Int × List Int) :=
  vouchersBySourceChain.map
    (fun kv =>
      (kv.1, (sortByCmp (cmpVoucherDest unhealthyPositions) kv.2).map Prod.fst))

/-- One hop of a transfer chain: the carried amount arriving at a
destination, the part supplied there, and the remainder forwarded on. -/
structure Hop where
  destChainId : Int
  received : Int
  consumed : Int
  forwarded : Int
deriving DecidableEq

/-- Step 3 of the chaining (`rebalance.ts` lines 289-425) for one source,
with oracle token conversion taken as the identity: walk the destination
order; skip destinations already processed by an earlier chain or without a
matching unhealthy position; otherwise supply
`min(remainingAmount, needed)` and forward the remainder. Returns the hops,
the updated processed set and the final carried remainder. -/
def runChain (unhealthyPositions : List AavePosition) (needsByDestination :
    AmountMap) (processed : List Int) (remainingAmount : Int) :
    List Int → List Hop × List Int × Int
  | [] => ([], processed, remainingAmount)
  | destChainId :: rest =>
    if destChainId ∈ processed then
      runChain unhealthyPositions needsByDestination processed remainingAmount rest
    else
      match unhealthyPositions.find? (fun p => p.chainId = destChainId) with
      | none =>
        runChain unhealthyPositions needsByDestination processed remainingAmount
          rest
      | some _ =>
        let needed := mapGetD needsByDestination destChainId
        let supplyAmount :=
          if remainingAmount < needed then remainingAmount else needed
        let remainder := remainingAmount - supplyAmount
        match runChain unhealthyPositions needsByDestination
            (destChainId :: processed) remainder rest with
        | (hops, processedNew, finalAmount) =>
          (⟨destChainId, remainingAmount, supplyAmount, remainder⟩ :: hops,
            processedNew, finalAmount)

/-- All chains, processed in source insertion order with the shared
`processedDestinations` set threaded through. -/
def processAllChains (unhealthyPositions : List AavePosition)
    (needsByDestination withdrawalsByChain : AmountMap)
    (orders : List (Int × List Int)) : List (Int × List Hop) :=
  (orders.foldl
    (fun st kv =>
      match runChain unhealthyPositions needsByDestination st.2
          (mapGetD withdrawalsByChain kv.1) kv.2 with
      | (hops, processedNew, _) => (st.1 ++ [(kv.1, hops)], processedNew))
    ([], [])).1

/-- The pure decision pipeline of `crossChainRebalanceAavePositions` after
classification: distribution plan, greedy matching, voucher grouping,
destination ordering and remainder chaining. -/
def transferPipeline (healthyPositions unhealthyPositions :
    List AavePosition) (minHealthFactor : Int) :
    Option (List TransferInstruction × List (Int × List Hop)) := do
  let (withdrawals, supplies) ←
    optimizeRebalanceDistribution healthyPositions unhealthyPositions
      minHealthFactor
  let instrs :=
    matchTransfers healthyPositions unhealthyPositions withdrawals supplies
  let (withdrawalsByChain, vouchersBySourceChain) := groupVouchers instrs
  let orders := chainOrderBySource unhealthyPositions vouchersBySourceChain
  pure (instrs, processAllChains unhealthyPositions supplies
    withdrawalsByChain orders)

/-- The two empty-set conditions `crossChainRebalanceAavePositions` throws
for (`rebalance.ts` lines 51-57), and a thrown arithmetic error. -/
inductive RebalanceError where
  | noUnhealthyPositions
  | noHealthyPositions
  | divisionByZero
deriving DecidableEq

/-- Entry guards of `crossChainRebalanceAavePositions` (`rebalance.ts`
lines 43-60): classify positions, throw on an empty side, then compute the
distribution plan. `Except.error` models `throw new Error(...)`. -/
def crossChainRebalancePlan (positions : List AavePosition)
    (minHealthFactor : Int) : Except RebalanceError (AmountMap × AmountMap) :=
  let unhealthyPositions :=
    positions.filter (fun pos => isPositionUnhealthy pos minHealthFactor)
  let healthyPositions :=
    positions.filter (fun pos =>
      !isPositionUnhealthy pos minHealthFactor &&
        decide (0 < pos.totalCollateralBase))
  if unhealthyPositions.isEmpty then
    Except.error RebalanceError.noUnhealthyPositions
  else if healthyPositions.isEmpty then
    Except.error RebalanceError.noHealthyPositions
  else
    match optimizeRebalanceDistribution healthyPositions unhealthyPositions
        minHealthFactor with
    | some plan => Except.ok plan
    | none => Except.error RebalanceError.divisionByZero

/-- A transfer chain is linked to its carried amount: the first hop
receives the full amount and every later hop receives exactly what its
predecessor forwarded. -/
def ChainLinked : Int → List Hop → Prop
  | _, [] => True
  | w, h :: hs => h.received = w ∧ ChainLinked h.forwarded hs

instance chainLinkedDec : (w : Int) → (l : List Hop) → Decidable (ChainLinked w l)
  | _, [] => Decidable.isTrue trivial
  | w, h :: hs =>
    have := chainLinkedDec h.forwarded hs
    inferInstanceAs (Decidable (_ ∧ _))

/-- Total instruction amount leaving chain `c`. -/
def sumBySource (l : List TransferInstruction) (c : Int) : Int :=
  (l.map fun t => if t.sourceChainId = c then t.amount else 0).sum

/-- Total instruction amount entering chain `c`. -/
def sumByDest (l : List TransferInstruction) (c : Int) : Int :=
  (l.map fun t => if t.destinationChainId = c then t.amount else 0).sum

/-- A voucher destination entry resolving to a debt-free (sentinel risk
ratio) unhealthy position. -/
def DestSentinel (unhealthyPositions : List AavePosition)
    (d : Int × Int) : Prop :=
  ∃ p, unhealthyPositions.find? (fun q => q.chainId = d.1) = some p ∧
    p.healthFactor = 0

/-! ### Concrete scenario positions -/

/-- Healthy chain A of the two-chain deficit scenario: collateral 1000, no
debt, sentinel risk. -/
def posA : AavePosition := ⟨1, 0, 1000, 0, 0, 8000, 0, "A"⟩

/-- Unhealthy chain B of the two-chain deficit scenario: collateral 100,
debt 90, liquidation threshold 8000, health factor 100*8000*10^14/90. -/
def posB : AavePosition := ⟨2, 888888888888888888, 100, 90, 0, 8000, 0, "B"⟩

/-- A position with outstanding debt and a zero liquidation threshold. -/
def posZeroThr : AavePosition :=
  ⟨3, 1000000000000000000, 1000, 100, 0, 0, 0, "Z"⟩

/-- Unhealthy chain needing 100 (collateral 200, debt 200, hf 0.8e18). -/
def posD : AavePosition :=
  ⟨10, 800000000000000000, 200, 200, 0, 8000, 0, "D"⟩

/-- Unhealthy chain needing 40 (collateral 110, debt 100, hf 0.88e18). -/
def posE : AavePosition :=
  ⟨11, 880000000000000000, 110, 100, 0, 8000, 0, "E"⟩

/-- Healthy chain with 60 available (collateral 210, debt 100). -/
def posS1 : AavePosition :=
  ⟨20, 1680000000000000000, 210, 100, 0, 8000, 0, "S1"⟩

/-- Healthy chain with 80 available (collateral 230, debt 100). -/
def posS2 : AavePosition :=
  ⟨21, 1840000000000000000, 230, 100, 0, 8000, 0, "S2"⟩

/-- Healthy chain with only 10 available (collateral 160, debt 100). -/
def posS3 : AavePosition :=
  ⟨22, 1280000000000000000, 160, 100, 0, 8000, 0, "S3"⟩

/-- A debt-free (sentinel risk ratio) position on chain 1. -/
def posSent : AavePosition := ⟨1, 0, 50, 0, 0, 8000, 0, "W1"⟩

/-- A position on chain 2 with a finite risk ratio. -/
def posFin : AavePosition :=
  ⟨2, 500000000000000000, 100, 90, 0, 8000, 0, "W2"⟩

/-! ### Basic lemmas about the map model -/

theorem mapGet_set_self (m : AmountMap) (k v : Int) :
    mapGet (mapSet m k v) k = some v := by
  induction m with
  | nil => simp [mapSet, mapGet]
  | cons kv m ih =>
    by_cases h : kv.1 = k
    · simp [mapSet, h, mapGet]
    · simp [mapSet, h, mapGet, ih]

theorem mapGet_set_ne (m : AmountMap) (k v j : Int) (h : k ≠ j) :
    mapGet (mapSet m k v) j = mapGet m j := by
  induction m with
  | nil => simp [mapSet, mapGet, h]
  | cons kv m ih =>
    by_cases hk : kv.1 = k
    · have hkj : kv.1 ≠ j := hk ▸ h
      simp [mapSet, hk, mapGet, h, hkj]
    · by_cases hj : kv.1 = j
      · simp [mapSet, hk, mapGet, hj, Ne.symm h]
      · simp [mapSet, hk, mapGet, hj, ih]

theorem mapGetD_set_self (m : AmountMap) (k v : Int) :
    mapGetD (mapSet m k v) k = v := by
  simp [mapGetD, mapGet_set_self]

theorem mapGetD_set_ne (m : AmountMap) (k v j : Int) (h : k ≠ j) :
    mapGetD (mapSet m k v) j = mapGetD m j := by
  simp [mapGetD, mapGet_set_ne m k v j h]

theorem mapGet_eq_none (m : AmountMap) (k : Int)
    (h : k ∉ m.map Prod.fst) : mapGet m k = none := by
  induction m with
  | nil => simp [mapGet]
  | cons kv m ih =>
    simp only [List.map_cons, List.mem_cons] at h
    push_neg at h
    simp [mapGet, Ne.symm h.1, ih h.2]

theorem mapGetD_eq_zero (m : AmountMap) (k : Int)
    (h : k ∉ m.map Prod.fst) : mapGetD m k = 0 := by
  simp [mapGetD, mapGet_eq_none m k h]

theorem mapSet_fresh (m : AmountMap) (k v : Int)
    (h : k ∉ m.map Prod.fst) : mapSet m k v = m ++ [(k, v)] := by
  induction m with
  | nil => simp [mapSet]
  | cons kv m ih =>
    simp only [List.map_cons, List.mem_cons] at h
    push_neg at h
    simp [mapSet, Ne.symm h.1, ih h.2]

theorem mapSum_set_add (m : AmountMap) (k w : Int) :
    mapSum (mapSet m k (mapGetD m k + w)) = mapSum m + w := by
  induction m with
  | nil => simp [mapSet, mapSum, mapGetD, mapGet]
  | cons kv m ih =>
    by_cases h : kv.1 = k
    · simp [mapSet, h, mapSum, mapGetD, mapGet]
      ring
    · simp only [mapSet, h, if_false, mapGetD, mapGet] at ih ⊢
      simp only [mapSum, List.map_cons, List.sum_cons] at ih ⊢
      omega

theorem mapGetD_nonneg (m : AmountMap) (c : Int)
    (h : ∀ kv ∈ m, 0 ≤ kv.2) : 0 ≤ mapGetD m c := by
  induction m with
  | nil => simp [mapGetD, mapGet]
  | cons kv m ih =>
    by_cases hc : kv.1 = c
    · simpa [mapGetD, mapGet, hc] using h kv (by simp)
    · simp only [mapGetD, mapGet, hc, if_false] at *
      exact ih fun x hx => h x (by simp [hx])

/-- Looking up a position's chain in a map built from a duplicate-free
position list retrieves that position's value. -/
theorem mapGet_entries (l : List AavePosition) (g : AavePosition → Int)
    (hnd : (l.map AavePosition.chainId).Nodup) (p : AavePosition)
    (hp : p ∈ l) :
    mapGet (l.map fun q => (q.chainId, g q)) p.chainId = some (g p) := by
  induction l with
  | nil => simp at hp
  | cons q l ih =>
    simp only [List.map_cons, List.nodup_cons] at hnd
    rcases List.mem_cons.mp hp with h | h
    · subst h; simp [mapGet]
    · have hne : q.chainId ≠ p.chainId := by
        intro hq
        exact hnd.1 (hq ▸ List.mem_map_of_mem AavePosition.chainId h)
      simp [mapGet, hne, ih hnd.2 h]

theorem mapGetD_entries (l : List AavePosition) (g : AavePosition → Int)
    (hnd : (l.map AavePosition.chainId).Nodup) (p : AavePosition)
    (hp : p ∈ l) :
    mapGetD (l.map fun q => (q.chainId, g q)) p.chainId = g p := by
  simp [mapGetD, mapGet_entries l g hnd p hp]

/-! ### Lemmas about the sort model -/

theorem stableInsert_perm (cmp : α → α → Int) (a : α) (l : List α) :
    (stableInsert cmp a l).Perm (a :: l) := by
  induction l with
  | nil => simp [stableInsert]
  | cons b l ih =>
    by_cases h : 0 < cmp b a
    · simp [stableInsert, h]
    · simp only [stableInsert, h, if_false]
      exact (ih.cons b).trans (List.Perm.swap a b l)

theorem sortByCmp_perm (cmp : α → α → Int) (l : List α) :
    (sortByCmp cmp l).Perm l := by
  have key : ∀ (l acc : List α),
      (l.foldl (fun acc a => stableInsert cmp a acc) acc).Perm (acc ++ l) := by
    intro l
    induction l with
    | nil => simp
    | cons x l ih =>
      intro acc
      exact (ih (stableInsert cmp x acc)).trans
        (((stableInsert_perm cmp x acc).append_right l).trans
          List.perm_middle.symm)
  simpa using key l []

theorem sortByCmp_mem (cmp : α → α → Int) (l : List α) (a : α) :
    a ∈ sortByCmp cmp l ↔ a ∈ l :=
  (sortByCmp_perm cmp l).mem_iff

theorem sortByCmp_map_sum (cmp : α → α → Int) (l : List α) (f : α → Int) :
    ((sortByCmp cmp l).map f).sum = (l.map f).sum :=
  ((sortByCmp_perm cmp l).map f).sum_eq

theorem sortByCmp_nodup_chains (cmp : AavePosition → AavePosition → Int)
    (l : List AavePosition)
    (h : (l.map AavePosition.chainId).Nodup) :
    ((sortByCmp cmp l).map AavePosition.chainId).Nodup :=
  ((sortByCmp_perm cmp l).map AavePosition.chainId).nodup_iff.mpr h

/-- Generic ordering fact behind the sentinel tie-break: if elements
satisfying `late` always compare greater than everything and non-`late`
elements never compare greater than a `late` one, the stable sort pushes
all `late` elements to the end. -/
theorem sortByCmp_late (cmp : α → α → Int) (late : α → Prop)
    (hLate : ∀ x y, late x → 0 < cmp x y)
    (hNot : ∀ x y, ¬late x → late y → cmp x y ≤ 0) (l : List α) :
    (sortByCmp cmp l).Pairwise (fun a b => late a → late b) := by
  have insert_pw : ∀ (a : α) (acc : List α),
      acc.Pairwise (fun a b => late a → late b) →
      (stableInsert cmp a acc).Pairwise (fun a b => late a → late b) := by
    intro a acc
    induction acc with
    | nil => simp [stableInsert]
    | cons b l ih =>
      intro hpw
      rcases List.pairwise_cons.mp hpw with ⟨hb, hl⟩
      by_cases h : 0 < cmp b a
      · simp only [stableInsert, h, if_true]
        refine List.pairwise_cons.mpr ⟨?_, hpw⟩
        intro x hx hla
        have hlb : late b := by
          by_contra hnb
          exact absurd (hNot b a hnb hla) (not_le.mpr h)
        rcases List.mem_cons.mp hx with hxb | hxl
        · exact hxb ▸ hlb
        · exact hb x hxl hlb
      · simp only [stableInsert, h, if_false]
        refine List.pairwise_cons.mpr ⟨?_, ih hl⟩
        intro x hx hlb
        exact absurd (hLate b a hlb) h
  have key : ∀ (l acc : List α),
      acc.Pairwise (fun a b => late a → late b) →
      (l.foldl (fun acc a => stableInsert cmp a acc) acc).Pairwise
        (fun a b => late a → late b) := by
    intro l
    induction l with
    | nil => exact fun acc h => h
    | cons x l ih => exact fun acc h => ih _ (insert_pw x acc h)
  exact key l [] (by simp)

/-- Mirrored fact: if `early` elements never compare greater than anything
and everything else compares greater than an `early` element, the stable
sort keeps all `early` elements at the front. -/
theorem sortByCmp_early (cmp : α → α → Int) (early : α → Prop)
    (hE1 : ∀ x y, early x → cmp x y ≤ 0)
    (hE2 : ∀ x y, ¬early x → early y → 0 < cmp x y) (l : List α) :
    (sortByCmp cmp l).Pairwise (fun a b => early b → early a) := by
  have insert_pw : ∀ (a : α) (acc : List α),
      acc.Pairwise (fun a b => early b → early a) →
      (stableInsert cmp a acc).Pairwise (fun a b => early b → early a) := by
    intro a acc
    induction acc with
    | nil => simp [stableInsert]
    | cons b l ih =>
      intro hpw
      rcases List.pairwise_cons.mp hpw with ⟨hb, hl⟩
      by_cases h : 0 < cmp b a
      · simp only [stableInsert, h, if_true]
        refine List.pairwise_cons.mpr ⟨?_, hpw⟩
        intro x hx hex
        exfalso
        rcases List.mem_cons.mp hx with hxb | hxl
        · exact absurd (hE1 b a (hxb ▸ hex)) (not_le.mpr h)
        · have heb : early b := hb x hxl hex
          exact absurd (hE1 b a heb) (not_le.mpr h)
      · simp only [stableInsert, h, if_false]
        refine List.pairwise_cons.mpr ⟨?_, ih hl⟩
        intro x hx hex
        rcases List.mem_cons.mp ((stableInsert_perm cmp a l).mem_iff.mp hx)
          with hxa | hxl
        · subst hxa
          by_contra hnb
          exact absurd (hE2 b x hnb hex) h
        · exact hb x hxl hex
  have key : ∀ (l acc : List α),
      acc.Pairwise (fun a b => early b → early a) →
      (l.foldl (fun acc a => stableInsert cmp a acc) acc).Pairwise
        (fun a b => early b → early a) := by
    intro l
    induction l with
    | nil => exact fun acc h => h
    | cons x l ih => exact fun acc h => ih _ (insert_pw x acc h)
  exact key l [] (by simp)

/-! ### Lemmas about the per-chain need/availability maps -/

theorem buildByChain_isSome (f : AavePosition → Option Int)
    (ps : List AavePosition) :
    ∀ (m r : AmountMap), buildByChain f m ps = some r →
      ∀ p ∈ ps, (f p).isSome := by
  induction ps with
  | nil => intro m r _ p hp; simp at hp
  | cons q ps ih =>
    intro m r hb p hp
    simp only [buildByChain] at hb
    rcases hq : f q with _ | v
    · rw [hq] at hb; exact absurd hb (by simp)
    · rw [hq] at hb
      rcases List.mem_cons.mp hp with h | h
      · subst h; simp [hq]
      · exact ih _ r hb p h

theorem buildByChain_eq (f : AavePosition → Option Int)
    (g : AavePosition → Int) (ps : List AavePosition) :
    ∀ (m : AmountMap),
      (∀ p ∈ ps, p.chainId ∉ m.map Prod.fst) →
      (ps.map AavePosition.chainId).Nodup →
      (∀ p ∈ ps, f p = some (g p)) →
      buildByChain f m ps = some (m ++ ps.map fun p => (p.chainId, g p)) := by
  induction ps with
  | nil => intro m _ _ _; simp [buildByChain]
  | cons q ps ih =>
    intro m hfresh hnd hf
    simp only [List.map_cons, List.nodup_cons] at hnd
    have hq : f q = some (g q) := hf q (by simp)
    simp only [buildByChain, hq]
    have hset : mapSet m q.chainId (g q) = m ++ [(q.chainId, g q)] :=
      mapSet_fresh m q.chainId (g q) (hfresh q (by simp))
    rw [hset, ih (m ++ [(q.chainId, g q)]) ?_ hnd.2
      (fun p hp => hf p (by simp [hp]))]
    · simp
    · intro p hp
      simp only [List.map_append, List.mem_append]
      push_neg
      constructor
      · exact hfresh p (by simp [hp])
      · simp only [List.map_cons, List.map_nil, List.mem_singleton]
        intro hc
        exact hnd.1 (hc ▸ List.mem_map_of_mem AavePosition.chainId hp)

theorem mem_mapSet (m : AmountMap) (k v : Int) (kv : Int × Int)
    (h : kv ∈ mapSet m k v) : kv = (k, v) ∨ kv ∈ m := by
  induction m with
  | nil => simpa [mapSet] using h
  | cons kw m ih =>
    by_cases hk : kw.1 = k
    · simp only [mapSet, hk, if_true, List.mem_cons] at h
      rcases h with h | h
      · exact Or.inl h
      · exact Or.inr (by simp [h])
    · simp only [mapSet, hk, if_false, List.mem_cons] at h
      rcases h with h | h
      · exact Or.inr (by simp [h])
      · rcases ih h with h2 | h2
        · exact Or.inl h2
        · exact Or.inr (by simp [h2])

/-- The values recorded by `buildByChain` stay non-negative when the
per-position function only produces non-negative values on the list. -/
theorem buildByChain_vals_nonneg (f : AavePosition → Option Int)
    (ps : List AavePosition)
    (hf : ∀ p ∈ ps, ∀ v, f p = some v → 0 ≤ v) :
    ∀ (m r : AmountMap), (∀ kv ∈ m, 0 ≤ kv.2) →
      buildByChain f m ps = some r → ∀ kv ∈ r, 0 ≤ kv.2 := by
  induction ps with
  | nil =>
    intro m r hm hb
    simp only [buildByChain, Option.some.injEq] at hb
    exact hb ▸ hm
  | cons q ps ih =>
    intro m r hm hb
    simp only [buildByChain] at hb
    rcases hq : f q with _ | v
    · rw [hq] at hb; exact absurd hb (by simp)
    · rw [hq] at hb
      refine ih (fun p hp => hf p (by simp [hp])) _ r ?_ hb
      intro kv hkv
      rcases mem_mapSet m q.chainId v kv hkv with h | h
      · exact h ▸ hf q (by simp) v hq
      · exact hm kv h

theorem calculateCollateralNeeded_nonneg (p : AavePosition) (t v : Int)
    (h : calculateCollateralNeeded p t = some v) : 0 ≤ v := by
  by_cases h0 : p.totalDebtBase = 0 ∨ p.healthFactor = 0
  · simp [calculateCollateralNeeded, h0] at h; omega
  · by_cases hl : p.currentLiquidationThreshold = 0
    · simp [calculateCollateralNeeded, h0, hl] at h
    · simp [calculateCollateralNeeded, h0, hl] at h
      split at h <;> omega

theorem calculateMaxWithdrawable_nonneg (p : AavePosition) (t v : Int)
    (hc : 0 ≤ p.totalCollateralBase)
    (h : calculateMaxWithdrawable p t = some v) : 0 ≤ v := by
  by_cases h0 : p.totalDebtBase = 0 ∨ p.healthFactor = 0
  · simp only [calculateMaxWithdrawable, h0, if_true, Option.some.injEq] at h
    exact h ▸ Int.tdiv_nonneg hc (by omega)
  · by_cases hl : p.currentLiquidationThreshold = 0
    · simp [calculateMaxWithdrawable, h0, hl] at h
    · simp [calculateMaxWithdrawable, h0, hl] at h
      split at h <;> omega

/-! ### The sufficient branch -/

/-- Folding sufficientSupplies over a duplicate-free entries list keeps exactly the
positive-valued entries, in order. -/
theorem sufficientSupplies_eq (nm : AmountMap) :
    ∀ (s : AmountMap),
      (∀ kv ∈ nm, kv.1 ∉ s.map Prod.fst) →
      (nm.map Prod.fst).Nodup →
      sufficientSupplies s nm = s ++ nm.filter (fun kv => decide (0 < kv.2)) := by
  induction nm with
  | nil => intro s _ _; simp [sufficientSupplies]
  | cons kv nm ih =>
    intro s hfresh hnd
    simp only [List.map_cons, List.nodup_cons] at hnd
    by_cases hv : 0 < kv.2
    · simp only [sufficientSupplies, hv, if_true]
      have hset : mapSet s kv.1 kv.2 = s ++ [(kv.1, kv.2)] :=
        mapSet_fresh s kv.1 kv.2 (hfresh kv (by simp))
      rw [hset, ih (s ++ [(kv.1, kv.2)]) ?_ hnd.2]
      · simp [hv]
      · intro kw hkw
        simp only [List.map_append, List.mem_append]
        push_neg
        refine ⟨hfresh kw (by simp [hkw]), ?_⟩
        simp only [List.map_cons, List.map_nil, List.mem_singleton]
        intro hc
        exact hnd.1 (hc ▸ List.mem_map_of_mem Prod.fst hkw)
    · simp only [sufficientSupplies, hv, if_false]
      rw [ih s (fun kw hkw => hfresh kw (by simp [hkw])) hnd.2]
      simp [hv]

theorem mapSum_filter_pos (nm : AmountMap) (h : ∀ kv ∈ nm, 0 ≤ kv.2) :
    mapSum (nm.filter fun kv => decide (0 < kv.2)) = mapSum nm := by
  induction nm with
  | nil => simp
  | cons kv nm ih =>
    have ih2 := ih (fun kw hkw => h kw (by simp [hkw]))
    by_cases hv : 0 < kv.2
    · simp [List.filter_cons, hv, mapSum] at ih2 ⊢
      omega
    · have hz : kv.2 = 0 := le_antisymm (not_lt.mp hv) (h kv (by simp))
      simp [List.filter_cons, hv, mapSum, hz] at ih2 ⊢
      omega

theorem mapGetD_filter_pos (nm : AmountMap) (k : Int)
    (hnd : (nm.map Prod.fst).Nodup) (h : ∀ kv ∈ nm, 0 ≤ kv.2) :
    mapGetD (nm.filter fun kv => decide (0 < kv.2)) k = mapGetD nm k := by
  induction nm with
  | nil => simp
  | cons kv nm ih =>
    simp only [List.map_cons, List.nodup_cons] at hnd
    have ih2 := ih hnd.2 (fun kw hkw => h kw (by simp [hkw]))
    by_cases hk : kv.1 = k
    · by_cases hv : 0 < kv.2
      · simp only [List.filter_cons]
        rw [show decide (0 < kv.2) = true by simp [hv], if_pos rfl]
        simp [mapGetD, mapGet, hk]
      · have hz : kv.2 = 0 := le_antisymm (not_lt.mp hv) (h kv (by simp))
        have hknot : k ∉ (nm.filter fun kv => decide (0 < kv.2)).map Prod.fst := by
          intro hmem
          have hmem2 : k ∈ nm.map Prod.fst :=
            List.Sublist.mem hmem ((List.filter_sublist nm).map Prod.fst)
          exact hnd.1 (hk ▸ hmem2)
        simp only [List.filter_cons]
        rw [show decide (0 < kv.2) = false by simp [hv], if_neg (by simp)]
        rw [mapGetD_eq_zero _ k hknot]
        simp [mapGetD, mapGet, hk, hz]
    · by_cases hv : 0 < kv.2
      · simp only [List.filter_cons]
        rw [show decide (0 < kv.2) = true by simp [hv], if_pos rfl]
        simp only [mapGetD, mapGet, hk, if_false] at ih2 ⊢
        exact ih2
      · simp only [List.filter_cons]
        rw [show decide (0 < kv.2) = false by simp [hv], if_neg (by simp)]
        simp only [mapGetD, mapGet, hk, if_false] at ih2 ⊢
        exact ih2

/-- Greedy withdrawal loop of the sufficient branch: when the target is at
most the total availability along the visited list, the withdrawn values
sum to exactly the target. -/
theorem sufficientWithdrawals_sum (am : AmountMap) (ps : List AavePosition) :
    ∀ (ws : AmountMap) (r : Int), 0 ≤ r →
      (∀ p ∈ ps, 0 ≤ mapGetD am p.chainId) →
      r ≤ (ps.map fun p => mapGetD am p.chainId).sum →
      mapSum (sufficientWithdrawals am r ws ps) = mapSum ws + r := by
  induction ps with
  | nil =>
    intro ws r hr _ hle
    simp only [List.map_nil, List.sum_nil] at hle
    have : r = 0 := le_antisymm hle hr
    simp [sufficientWithdrawals, this]
  | cons pos rest ih =>
    intro ws r hr hnn hle
    by_cases hz : r = 0
    · simp [sufficientWithdrawals, hz]
    · simp only [sufficientWithdrawals, hz, if_false]
      by_cases ha : mapGetD am pos.chainId = 0
      · simp only [ha, if_true]
        refine ih ws r hr (fun p hp => hnn p (by simp [hp])) ?_
        simpa [ha] using hle
      · simp only [ha, if_false]
        have hannn : 0 ≤ mapGetD am pos.chainId := hnn pos (by simp)
        have hrest : ∀ p ∈ rest, 0 ≤ mapGetD am p.chainId :=
          fun p hp => hnn p (by simp [hp])
        simp only [List.map_cons, List.sum_cons] at hle
        by_cases hlt : mapGetD am pos.chainId < r
        · simp only [hlt, if_true]
          rw [ih _ (r - mapGetD am pos.chainId) (by omega) hrest (by omega),
            mapSum_set_add]
          ring
        · simp only [hlt, if_false]
          have hrestnn : 0 ≤ (rest.map fun p => mapGetD am p.chainId).sum :=
            List.sum_nonneg (by
              intro x hx
              rcases List.mem_map.mp hx with ⟨p, hp, hpx⟩
              exact hpx ▸ hrest p hp)
          rw [ih _ (r - r) (by omega) hrest (by omega), mapSum_set_add]
          ring

theorem mapSum_nonneg (m : AmountMap) (h : ∀ kv ∈ m, 0 ≤ kv.2) :
    0 ≤ mapSum m :=
  List.sum_nonneg (fun x hx => by
    rcases List.mem_map.mp hx with ⟨kv, hkv, rfl⟩
    exact h kv hkv)

/-- A successful `buildByChain` run over a duplicate-free position list
produces exactly the per-position entries, in order. -/
theorem buildByChain_some_eq (f : AavePosition → Option Int)
    (ps : List AavePosition) (nm : AmountMap)
    (hnd : (ps.map AavePosition.chainId).Nodup)
    (h : buildByChain f [] ps = some nm) :
    nm = ps.map fun p => (p.chainId, (f p).getD 0) := by
  have hsome := buildByChain_isSome f ps [] nm h
  have hf : ∀ p ∈ ps, f p = some ((f p).getD 0) := by
    intro p hp
    rcases Option.isSome_iff_exists.mp (hsome p hp) with ⟨v, hv⟩
    simp [hv]
  rw [buildByChain_eq f (fun p => (f p).getD 0) ps [] (by simp) hnd hf] at h
  simpa using h.symm

/-- In the sufficient case, `optimizeRebalanceDistribution` reduces to the
sufficient-branch loops. -/
theorem optimize_sufficient_eq (healthy unhealthy : List AavePosition)
    (minHF : Int) (nm am : AmountMap)
    (hnm : buildByChain (fun p => calculateCollateralNeeded p minHF) []
      unhealthy = some nm)
    (ham : buildByChain (fun p => calculateMaxWithdrawable p minHF) []
      healthy = some am)
    (hsuff : ¬ mapSum am < mapSum nm) :
    optimizeRebalanceDistribution healthy unhealthy minHF =
      some (sufficientWithdrawals am (mapSum nm) []
          (sortByCmp cmpHealthyDesc healthy),
        sufficientSupplies [] nm) := by
  simp [optimizeRebalanceDistribution, hnm, ham, hsuff]

/-- In the shortfall case, `optimizeRebalanceDistribution` reduces to the
shortfall-branch loops. -/
theorem optimize_shortfall_eq (healthy unhealthy : List AavePosition)
    (minHF : Int) (nm am : AmountMap)
    (hnm : buildByChain (fun p => calculateCollateralNeeded p minHF) []
      unhealthy = some nm)
    (ham : buildByChain (fun p => calculateMaxWithdrawable p minHF) []
      healthy = some am)
    (hshort : mapSum am < mapSum nm) :
    optimizeRebalanceDistribution healthy unhealthy minHF =
      some (shortfallWithdrawals am (mapSum am) []
          (sortByCmp cmpHealthyDesc healthy),
        (shortfallSupplies (mapSum am) (mapSum nm) nm []
          (sortByCmp cmpUnhealthyAsc unhealthy)).1) := by
  simp [optimizeRebalanceDistribution, hnm, ham, hshort]

/-- C1 (conservation in the sufficient case): with valid, chain-disjoint,
duplicate-free inputs and `totalAvailable >= totalNeeded`, every unhealthy
chain is supplied exactly its computed needed amount, the supplies sum to
the needs total, and the withdrawals sum to exactly `totalNeeded`. -/
theorem collateral_conservation_sufficient
    (healthy unhealthy : List AavePosition) (minHF : Int) (nm am : AmountMap)
    (hvH : ∀ p ∈ healthy, Valid p) (hvU : ∀ p ∈ unhealthy, Valid p)
    (hndU : (unhealthy.map AavePosition.chainId).Nodup)
    (hndH : (healthy.map AavePosition.chainId).Nodup)
    (hdisj : ∀ p ∈ healthy, ∀ q ∈ unhealthy, p.chainId ≠ q.chainId)
    (hnm : buildByChain (fun p => calculateCollateralNeeded p minHF) []
      unhealthy = some nm)
    (ham : buildByChain (fun p => calculateMaxWithdrawable p minHF) []
      healthy = some am)
    (hsuff : mapSum nm ≤ mapSum am) :
    ∃ w s, optimizeRebalanceDistribution healthy unhealthy minHF =
        some (w, s) ∧
      (∀ p ∈ unhealthy,
        calculateCollateralNeeded p minHF = some (mapGetD s p.chainId)) ∧
      mapSum s = mapSum nm ∧ mapSum w = mapSum nm := by
  have hopt := optimize_sufficient_eq healthy unhealthy minHF nm am hnm ham
    (not_lt.mpr hsuff)
  have hnmEq := buildByChain_some_eq _ unhealthy nm hndU hnm
  have hamEq := buildByChain_some_eq _ healthy am hndH ham
  have hnmKeysNd : (nm.map Prod.fst).Nodup := by
    rw [hnmEq, List.map_map]
    simpa [Function.comp] using hndU
  have hnmVals : ∀ kv ∈ nm, 0 ≤ kv.2 :=
    buildByChain_vals_nonneg _ unhealthy
      (fun p _ v hv => calculateCollateralNeeded_nonneg p minHF v hv)
      [] nm (by simp) hnm
  have hsupp : sufficientSupplies [] nm =
      nm.filter (fun kv => decide (0 < kv.2)) :=
    sufficientSupplies_eq nm [] (by simp) hnmKeysNd
  refine ⟨_, _, hopt, ?_, ?_, ?_⟩
  · intro p hp
    have hgd : mapGetD (sufficientSupplies [] nm) p.chainId =
        mapGetD nm p.chainId := by
      rw [hsupp]
      exact mapGetD_filter_pos nm p.chainId hnmKeysNd hnmVals
    have hin : mapGetD nm p.chainId =
        (calculateCollateralNeeded p minHF).getD 0 := by
      rw [hnmEq]
      exact mapGetD_entries unhealthy _ hndU p hp
    rcases Option.isSome_iff_exists.mp
      (buildByChain_isSome _ unhealthy [] nm hnm p hp) with ⟨v, hv⟩
    rw [hgd, hin]
    simp [hv]
  · rw [hsupp]
    exact mapSum_filter_pos nm hnmVals
  · have hr : 0 ≤ mapSum nm := mapSum_nonneg nm hnmVals
    have hcong : ∀ p ∈ sortByCmp cmpHealthyDesc healthy,
        mapGetD am p.chainId = (calculateMaxWithdrawable p minHF).getD 0 := by
      intro p hp
      rw [hamEq]
      exact mapGetD_entries healthy _ hndH p ((sortByCmp_mem _ _ _).mp hp)
    have hmemnn : ∀ p ∈ sortByCmp cmpHealthyDesc healthy,
        0 ≤ mapGetD am p.chainId := by
      intro p hp
      have hp2 : p ∈ healthy := (sortByCmp_mem _ _ _).mp hp
      rcases Option.isSome_iff_exists.mp
        (buildByChain_isSome _ healthy [] am ham p hp2) with ⟨v, hv⟩
      rw [hcong p hp, hv]
      simpa using calculateMaxWithdrawable_nonneg p minHF v (hvH p hp2).1 hv
    have hsum : ((sortByCmp cmpHealthyDesc healthy).map
        fun p => mapGetD am p.chainId).sum = mapSum am := by
      rw [List.map_congr_left hcong, sortByCmp_map_sum, hamEq]
      simp only [mapSum, List.map_map]
      rfl
    have := sufficientWithdrawals_sum am (sortByCmp cmpHealthyDesc healthy)
      [] (mapSum nm) hr hmemnn (by rw [hsum]; exact hsuff)
    simpa [mapSum] using this

/-! ### The shortfall branch -/

theorem mem_keys_mapSet (m : AmountMap) (k v x : Int)
    (h : x ∈ (mapSet m k v).map Prod.fst) :
    x = k ∨ x ∈ m.map Prod.fst := by
  rcases List.mem_map.mp h with ⟨kv, hkv, rfl⟩
  rcases mem_mapSet m k v kv hkv with h2 | h2
  · exact Or.inl (by rw [h2])
  · exact Or.inr (List.mem_map_of_mem Prod.fst h2)

theorem shortfallWithdrawals_untouched (ps : List AavePosition) :
    ∀ (ra ws : AmountMap) (r c : Int), c ∉ ps.map AavePosition.chainId →
      mapGetD (shortfallWithdrawals ra r ws ps) c = mapGetD ws c := by
  induction ps with
  | nil => intro ra ws r c _; rfl
  | cons pos rest ih =>
    intro ra ws r c hc
    simp only [List.map_cons, List.mem_cons] at hc
    push_neg at hc
    by_cases hz : r = 0
    · simp [shortfallWithdrawals, hz]
    · simp only [shortfallWithdrawals, hz, if_false]
      by_cases ha : mapGetD ra pos.chainId = 0
      · simp only [ha, if_true]
        exact ih ra ws r c hc.2
      · simp only [ha, if_false]
        rw [ih _ _ _ c hc.2]
        exact mapGetD_set_ne ws pos.chainId _ c (Ne.symm hc.1)

/-- Shortfall withdrawal loop: when the target equals the total remaining
availability along a duplicate-free list, every chain is drained of its full
availability and the withdrawals sum to exactly the target. -/
theorem shortfallWithdrawals_drain (ps : List AavePosition) :
    ∀ (ra ws : AmountMap) (r : Int),
      (ps.map AavePosition.chainId).Nodup →
      (∀ p ∈ ps, 0 ≤ mapGetD ra p.chainId) →
      r = (ps.map fun p => mapGetD ra p.chainId).sum →
      mapSum (shortfallWithdrawals ra r ws ps) = mapSum ws + r ∧
      ∀ p ∈ ps, mapGetD (shortfallWithdrawals ra r ws ps) p.chainId =
        mapGetD ws p.chainId + mapGetD ra p.chainId := by
  induction ps with
  | nil =>
    intro ra ws r _ _ hr
    simp only [List.map_nil, List.sum_nil] at hr
    subst hr
    exact ⟨by simp [shortfallWithdrawals], by simp⟩
  | cons pos rest ih =>
    intro ra ws r hnd hnn hr
    simp only [List.map_cons, List.nodup_cons] at hnd
    simp only [List.map_cons, List.sum_cons] at hr
    have ha : 0 ≤ mapGetD ra pos.chainId := hnn pos (by simp)
    have hrestnn : ∀ x ∈ rest.map fun p => mapGetD ra p.chainId, 0 ≤ x := by
      intro x hx
      rcases List.mem_map.mp hx with ⟨p, hp, rfl⟩
      exact hnn p (by simp [hp])
    have hS : 0 ≤ (rest.map fun p => mapGetD ra p.chainId).sum :=
      List.sum_nonneg hrestnn
    by_cases hz : r = 0
    · have haz : mapGetD ra pos.chainId = 0 := by omega
      have hallz : ∀ p ∈ rest, mapGetD ra p.chainId = 0 := by
        intro p hp
        have hle : mapGetD ra p.chainId ≤
            (rest.map fun q => mapGetD ra q.chainId).sum :=
          List.single_le_sum hrestnn _ (List.mem_map_of_mem _ hp)
        have := hnn p (by simp [hp])
        omega
      constructor
      · simp [shortfallWithdrawals, hz]
      · intro p hp
        simp only [shortfallWithdrawals, hz, if_true]
        rcases List.mem_cons.mp hp with h | h
        · rw [h]; omega
        · rw [hallz p h]; omega
    · simp only [shortfallWithdrawals, hz, if_false]
      by_cases ha0 : mapGetD ra pos.chainId = 0
      · simp only [ha0, if_true]
        have hrec := ih ra ws r hnd.2 (fun p hp => hnn p (by simp [hp]))
          (by omega)
        refine ⟨hrec.1, ?_⟩
        intro p hp
        rcases List.mem_cons.mp hp with h | h
        · rw [h, ha0,
            shortfallWithdrawals_untouched rest ra ws r pos.chainId hnd.1]
          omega
        · exact hrec.2 p h
      · simp only [ha0, if_false]
        have hw : (if mapGetD ra pos.chainId < r then mapGetD ra pos.chainId
            else r) = mapGetD ra pos.chainId := by
          split <;> omega
        rw [hw]
        have hgets : ∀ p ∈ rest,
            mapGetD (mapSet ra pos.chainId
              (mapGetD ra pos.chainId - mapGetD ra pos.chainId)) p.chainId =
            mapGetD ra p.chainId := by
          intro p hp
          refine mapGetD_set_ne ra pos.chainId _ p.chainId ?_
          intro hc
          exact hnd.1 (hc ▸ List.mem_map_of_mem AavePosition.chainId hp)
        have hrec := ih
          (mapSet ra pos.chainId
            (mapGetD ra pos.chainId - mapGetD ra pos.chainId))
          (mapSet ws pos.chainId
            (mapGetD ws pos.chainId + mapGetD ra pos.chainId))
          (r - mapGetD ra pos.chainId) hnd.2
          (fun p hp => (hgets p hp).symm ▸ hnn p (by simp [hp]))
          (by rw [List.map_congr_left hgets]; omega)
        constructor
        · rw [hrec.1, mapSum_set_add]
          ring
        · intro p hp
          rcases List.mem_cons.mp hp with h | h
          · subst h
            rw [shortfallWithdrawals_untouched rest _ _ _ p.chainId hnd.1,
              mapGetD_set_self]
          · rw [hrec.2 p h, hgets p h,
              mapGetD_set_ne ws pos.chainId _ p.chainId (by
                intro hc
                exact hnd.1 (hc ▸ List.mem_map_of_mem AavePosition.chainId h))]

theorem shortfallSupplies_untouched (A N : Int) (ps : List AavePosition) :
    ∀ (rn s : AmountMap) (c : Int), c ∉ ps.map AavePosition.chainId →
      mapGetD (shortfallSupplies A N rn s ps).1 c = mapGetD s c := by
  induction ps with
  | nil => intro rn s c _; rfl
  | cons pos rest ih =>
    intro rn s c hc
    simp only [List.map_cons, List.mem_cons] at hc
    push_neg at hc
    by_cases hz : mapGetD rn pos.chainId = 0
    · simp only [shortfallSupplies, hz, if_true]
      exact ih rn s c hc.2
    · simp only [shortfallSupplies, hz, if_false]
      by_cases hpos : 0 < (if 0 < A then
          (mapGetD rn pos.chainId * A).tdiv N else 0)
      · simp only [hpos, if_true]
        rw [ih _ _ c hc.2]
        exact mapGetD_set_ne s pos.chainId _ c (Ne.symm hc.1)
      · simp only [hpos, if_false]
        exact ih rn s c hc.2

/-- Shortfall supplies loop: over a duplicate-free list with non-negative
needs, each chain receives exactly the floor-division allocation
`(needed * totalAvailable) / totalNeeded`, and the supplies sum to the sum
of those allocations. -/
theorem shortfallSupplies_alloc (A N : Int) (hA : 0 ≤ A) (hN : 0 < N)
    (ps : List AavePosition) :
    ∀ (rn s : AmountMap),
      (ps.map AavePosition.chainId).Nodup →
      (∀ p ∈ ps, 0 ≤ mapGetD rn p.chainId) →
      (∀ p ∈ ps, p.chainId ∉ s.map Prod.fst) →
      (∀ p ∈ ps, mapGetD (shortfallSupplies A N rn s ps).1 p.chainId =
        (mapGetD rn p.chainId * A).tdiv N) ∧
      mapSum (shortfallSupplies A N rn s ps).1 = mapSum s +
        (ps.map fun p => (mapGetD rn p.chainId * A).tdiv N).sum := by
  induction ps with
  | nil =>
    intro rn s _ _ _
    exact ⟨by simp, by simp [shortfallSupplies]⟩
  | cons pos rest ih =>
    intro rn s hnd hnn hfresh
    simp only [List.map_cons, List.nodup_cons] at hnd
    have hneed : 0 ≤ mapGetD rn pos.chainId := hnn pos (by simp)
    have halloc : (if 0 < A then (mapGetD rn pos.chainId * A).tdiv N
        else 0) = (mapGetD rn pos.chainId * A).tdiv N := by
      split
      · rfl
      · have hz : A = 0 := by omega
        simp [hz]
    by_cases hz : mapGetD rn pos.chainId = 0
    · simp only [shortfallSupplies, hz, if_true]
      have hrec := ih rn s hnd.2 (fun p hp => hnn p (by simp [hp]))
        (fun p hp => hfresh p (by simp [hp]))
      constructor
      · intro p hp
        rcases List.mem_cons.mp hp with h | h
        · rw [h, shortfallSupplies_untouched A N rest rn s pos.chainId hnd.1,
            mapGetD_eq_zero s pos.chainId (hfresh pos (by simp)), hz]
          simp
        · exact hrec.1 p h
      · rw [hrec.2]
        simp only [List.map_cons, List.sum_cons]
        rw [hz]
        simp
    · simp only [shortfallSupplies, hz, if_false]
      by_cases hpos : 0 < (if 0 < A then
          (mapGetD rn pos.chainId * A).tdiv N else 0)
      · simp only [hpos, if_true]
        rw [halloc] at hpos ⊢
        have hsetget : ∀ p ∈ rest,
            mapGetD (mapSet rn pos.chainId (mapGetD rn pos.chainId -
              (mapGetD rn pos.chainId * A).tdiv N)) p.chainId =
            mapGetD rn p.chainId := by
          intro p hp
          refine mapGetD_set_ne rn pos.chainId _ p.chainId ?_
          intro hc
          exact hnd.1 (hc ▸ List.mem_map_of_mem AavePosition.chainId hp)
        have hfresh2 : ∀ p ∈ rest, p.chainId ∉
            (mapSet s pos.chainId (mapGetD s pos.chainId +
              (mapGetD rn pos.chainId * A).tdiv N)).map Prod.fst := by
          intro p hp hc
          rcases mem_keys_mapSet _ _ _ _ hc with h | h
          · exact hnd.1 (h ▸ List.mem_map_of_mem AavePosition.chainId hp)
          · exact hfresh p (by simp [hp]) h
        have hrec := ih _ _ hnd.2
          (fun p hp => (hsetget p hp).symm ▸ hnn p (by simp [hp])) hfresh2
        constructor
        · intro p hp
          rcases List.mem_cons.mp hp with h | h
          · subst h
            rw [shortfallSupplies_untouched A N rest _ _ p.chainId hnd.1,
              mapGetD_set_self,
              mapGetD_eq_zero s p.chainId (hfresh p (by simp))]
            omega
          · rw [hrec.1 p h, hsetget p h]
        · have hsetget2 : ∀ p ∈ rest,
              (mapGetD (mapSet rn pos.chainId (mapGetD rn pos.chainId -
                (mapGetD rn pos.chainId * A).tdiv N)) p.chainId * A).tdiv N =
              (mapGetD rn p.chainId * A).tdiv N := by
            intro p hp
            rw [hsetget p hp]
          rw [hrec.2, mapSum_set_add, List.map_cons, List.sum_cons,
            List.map_congr_left hsetget2]
          ring
      · simp only [hpos, if_false]
        rw [halloc] at hpos
        have hanonneg : 0 ≤ (mapGetD rn pos.chainId * A).tdiv N :=
          Int.tdiv_nonneg (mul_nonneg hneed hA) hN.le
        have hzero : (mapGetD rn pos.chainId * A).tdiv N = 0 := by omega
        have hrec := ih rn s hnd.2 (fun p hp => hnn p (by simp [hp]))
          (fun p hp => hfresh p (by simp [hp]))
        constructor
        · intro p hp
          rcases List.mem_cons.mp hp with h | h
          · rw [h, shortfallSupplies_untouched A N rest rn s pos.chainId
              hnd.1, mapGetD_eq_zero s pos.chainId (hfresh pos (by simp))]
            omega
          · exact hrec.1 p h
        · rw [hrec.2, List.map_cons, List.sum_cons, hzero]
          ring

/-! ### Floor-division arithmetic for the proportional split -/

theorem tdiv_add_le (a b N : Int) (ha : 0 ≤ a) (hb : 0 ≤ b) (hN : 0 < N) :
    a.tdiv N + b.tdiv N ≤ (a + b).tdiv N := by
  rw [Int.tdiv_eq_ediv ha hN.le, Int.tdiv_eq_ediv hb hN.le,
    Int.tdiv_eq_ediv (by omega) hN.le]
  rw [Int.le_ediv_iff_mul_le hN, add_mul]
  have h1 := Int.ediv_mul_le a (ne_of_gt hN)
  have h2 := Int.ediv_mul_le b (ne_of_gt hN)
  omega

theorem tdiv_sum_le (A N : Int) (hA : 0 ≤ A) (hN : 0 < N) (l : List Int)
    (hl : ∀ x ∈ l, 0 ≤ x) :
    (l.map fun x => (x * A).tdiv N).sum ≤ (l.sum * A).tdiv N := by
  induction l with
  | nil => simp
  | cons x l ih =>
    simp only [List.map_cons, List.sum_cons]
    have hx : 0 ≤ x := hl x (by simp)
    have hls : 0 ≤ l.sum := List.sum_nonneg (fun y hy => hl y (by simp [hy]))
    calc (x * A).tdiv N + (l.map fun x => (x * A).tdiv N).sum
        ≤ (x * A).tdiv N + (l.sum * A).tdiv N := by
          have := ih (fun y hy => hl y (by simp [hy]))
          omega
      _ ≤ (x * A + l.sum * A).tdiv N :=
          tdiv_add_le _ _ N (mul_nonneg hx hA) (mul_nonneg hls hA) hN
      _ = ((x + l.sum) * A).tdiv N := by ring_nf

theorem alloc_mod_identity (A N : Int) (hA : 0 ≤ A) (hN : 0 < N)
    (l : List Int) (hl : ∀ x ∈ l, 0 ≤ x) :
    N * (l.map fun x => (x * A).tdiv N).sum =
      l.sum * A - (l.map fun x => (x * A) % N).sum ∧
    (l.map fun x => (x * A) % N).sum ≤ (l.length : Int) * (N - 1) := by
  induction l with
  | nil => simp
  | cons x l ih =>
    have hrec := ih (fun y hy => hl y (by simp [hy]))
    have hx : 0 ≤ x * A := mul_nonneg (hl x (by simp)) hA
    have hkey : N * ((x * A).tdiv N) = x * A - (x * A) % N := by
      rw [Int.tdiv_eq_ediv hx hN.le]
      have := Int.ediv_add_emod (x * A) N
      omega
    have hmod : (x * A) % N ≤ N - 1 := by
      have := Int.emod_lt_of_pos (x * A) hN
      omega
    constructor
    · simp only [List.map_cons, List.sum_cons, List.length_cons]
      rw [mul_add, hkey, add_mul]
      omega
    · simp only [List.map_cons, List.sum_cons, List.length_cons]
      push_cast
      have := hrec.2
      nlinarith

/-- Floor-division proportional split: the allocations never exceed the
available total, and the rounding shortfall is at most one unit per
recipient beyond the first. -/
theorem alloc_sum_bounds (A N : Int) (hA : 0 ≤ A) (hN : 0 < N)
    (l : List Int) (hl : ∀ x ∈ l, 0 ≤ x) (hsum : l.sum = N) :
    (l.map fun x => (x * A).tdiv N).sum ≤ A ∧
    A - (l.map fun x => (x * A).tdiv N).sum ≤ (l.length : Int) - 1 := by
  have hle := tdiv_sum_le A N hA hN l hl
  rw [hsum, Int.tdiv_eq_ediv (mul_nonneg hN.le hA) hN.le,
    Int.mul_ediv_cancel_left A (ne_of_gt hN)] at hle
  refine ⟨hle, ?_⟩
  have hid := alloc_mod_identity A N hA hN l hl
  have hlen : 0 < l.length := by
    rcases l with _ | ⟨x, l⟩
    · simp at hsum; omega
    · simp
  have hlen2 : (1 : Int) ≤ (l.length : Int) := by exact_mod_cast hlen
  rw [hsum] at hid
  by_contra hcon
  push_neg at hcon
  have h1 : (l.length : Int) ≤ A - (l.map fun x => (x * A).tdiv N).sum := by
    omega
  have h2 : N * (l.length : Int) ≤
      N * (A - (l.map fun x => (x * A).tdiv N).sum) :=
    mul_le_mul_of_nonneg_left h1 hN.le
  have h3 : N * (A - (l.map fun x => (x * A).tdiv N).sum) =
      (l.map fun x => (x * A) % N).sum := by
    rw [mul_sub]
    omega
  nlinarith [hid.2]

/-- Facts about the distribution plan in the shortfall case, shared by the
conservation statements below. -/
theorem shortfall_plan_facts
    (healthy unhealthy : List AavePosition) (minHF : Int) (nm am : AmountMap)
    (hvH : ∀ p ∈ healthy, Valid p)
    (hndU : (unhealthy.map AavePosition.chainId).Nodup)
    (hndH : (healthy.map AavePosition.chainId).Nodup)
    (hnm : buildByChain (fun p => calculateCollateralNeeded p minHF) []
      unhealthy = some nm)
    (ham : buildByChain (fun p => calculateMaxWithdrawable p minHF) []
      healthy = some am)
    (hshort : mapSum am < mapSum nm) :
    ∃ w s, optimizeRebalanceDistribution healthy unhealthy minHF =
        some (w, s) ∧
      mapSum w = mapSum am ∧
      (∀ p ∈ healthy,
        calculateMaxWithdrawable p minHF = some (mapGetD w p.chainId)) ∧
      (∀ p ∈ unhealthy, ∀ n, calculateCollateralNeeded p minHF = some n →
        mapGetD s p.chainId = (n * mapSum am).tdiv (mapSum nm)) ∧
      mapSum s ≤ mapSum am ∧
      mapSum am - mapSum s ≤ (unhealthy.length : Int) - 1 := by
  have hopt := optimize_shortfall_eq healthy unhealthy minHF nm am hnm ham
    hshort
  have hnmEq := buildByChain_some_eq _ unhealthy nm hndU hnm
  have hamEq := buildByChain_some_eq _ healthy am hndH ham
  have hnmVals : ∀ kv ∈ nm, 0 ≤ kv.2 :=
    buildByChain_vals_nonneg _ unhealthy
      (fun p _ v hv => calculateCollateralNeeded_nonneg p minHF v hv)
      [] nm (by simp) hnm
  have hamVals : ∀ kv ∈ am, 0 ≤ kv.2 :=
    buildByChain_vals_nonneg _ healthy
      (fun p hp v hv =>
        calculateMaxWithdrawable_nonneg p minHF v (hvH p hp).1 hv)
      [] am (by simp) ham
  have hAnn : 0 ≤ mapSum am := mapSum_nonneg am hamVals
  have hN : 0 < mapSum nm := by omega
  -- withdrawals: full drain of every healthy chain
  have hcongH : ∀ p ∈ sortByCmp cmpHealthyDesc healthy,
      mapGetD am p.chainId = (calculateMaxWithdrawable p minHF).getD 0 := by
    intro p hp
    rw [hamEq]
    exact mapGetD_entries healthy _ hndH p ((sortByCmp_mem _ _ _).mp hp)
  have hnnSH : ∀ p ∈ sortByCmp cmpHealthyDesc healthy,
      0 ≤ mapGetD am p.chainId := by
    intro p hp
    have hp2 : p ∈ healthy := (sortByCmp_mem _ _ _).mp hp
    rcases Option.isSome_iff_exists.mp
      (buildByChain_isSome _ healthy [] am ham p hp2) with ⟨v, hv⟩
    rw [hcongH p hp, hv]
    simpa using calculateMaxWithdrawable_nonneg p minHF v (hvH p hp2).1 hv
  have hrEq : mapSum am = ((sortByCmp cmpHealthyDesc healthy).map
      fun p => mapGetD am p.chainId).sum := by
    rw [List.map_congr_left hcongH, sortByCmp_map_sum, hamEq]
    simp only [mapSum, List.map_map]
    rfl
  have hdrain := shortfallWithdrawals_drain (sortByCmp cmpHealthyDesc healthy)
    am [] (mapSum am) (sortByCmp_nodup_chains _ _ hndH) hnnSH hrEq
  -- supplies: floor-division proportional allocations
  have hcongU : ∀ p ∈ sortByCmp cmpUnhealthyAsc unhealthy,
      mapGetD nm p.chainId = (calculateCollateralNeeded p minHF).getD 0 := by
    intro p hp
    rw [hnmEq]
    exact mapGetD_entries unhealthy _ hndU p ((sortByCmp_mem _ _ _).mp hp)
  have hnnSU : ∀ p ∈ sortByCmp cmpUnhealthyAsc unhealthy,
      0 ≤ mapGetD nm p.chainId := by
    intro p hp
    have hp2 : p ∈ unhealthy := (sortByCmp_mem _ _ _).mp hp
    rcases Option.isSome_iff_exists.mp
      (buildByChain_isSome _ unhealthy [] nm hnm p hp2) with ⟨v, hv⟩
    rw [hcongU p hp, hv]
    simpa using calculateCollateralNeeded_nonneg p minHF v hv
  have halloc := shortfallSupplies_alloc (mapSum am) (mapSum nm) hAnn hN
    (sortByCmp cmpUnhealthyAsc unhealthy) nm []
    (sortByCmp_nodup_chains _ _ hndU) hnnSU (by simp)
  -- the allocation sums, rewritten over the original unhealthy list
  have hsumS : mapSum (shortfallSupplies (mapSum am) (mapSum nm) nm []
      (sortByCmp cmpUnhealthyAsc unhealthy)).1 =
      ((unhealthy.map fun p => (calculateCollateralNeeded p minHF).getD 0).map
        fun x => (x * mapSum am).tdiv (mapSum nm)).sum := by
    rw [halloc.2]
    have hcong2 : ∀ p ∈ sortByCmp cmpUnhealthyAsc unhealthy,
        (mapGetD nm p.chainId * mapSum am).tdiv (mapSum nm) =
        ((calculateCollateralNeeded p minHF).getD 0 * mapSum am).tdiv
          (mapSum nm) := by
      intro p hp
      rw [hcongU p hp]
    rw [List.map_congr_left hcong2, sortByCmp_map_sum, List.map_map]
    simp [mapSum, Function.comp_def]
  have hlvals : ∀ x ∈ unhealthy.map
      fun p => (calculateCollateralNeeded p minHF).getD 0, 0 ≤ x := by
    intro x hx
    rcases List.mem_map.mp hx with ⟨p, hp, rfl⟩
    rcases Option.isSome_iff_exists.mp
      (buildByChain_isSome _ unhealthy [] nm hnm p hp) with ⟨v, hv⟩
    rw [hv]
    simpa using calculateCollateralNeeded_nonneg p minHF v hv
  have hlsum : (unhealthy.map
      fun p => (calculateCollateralNeeded p minHF).getD 0).sum = mapSum nm := by
    rw [hnmEq]
    simp only [mapSum, List.map_map]
    rfl
  have hbounds := alloc_sum_bounds (mapSum am) (mapSum nm) hAnn hN
    (unhealthy.map fun p => (calculateCollateralNeeded p minHF).getD 0)
    hlvals hlsum
  refine ⟨_, _, hopt, ?_, ?_, ?_, ?_, ?_⟩
  · rw [hdrain.1]
    simp [mapSum]
  · intro p hp
    have hp2 : p ∈ sortByCmp cmpHealthyDesc healthy :=
      (sortByCmp_mem _ _ _).mpr hp
    rcases Option.isSome_iff_exists.mp
      (buildByChain_isSome _ healthy [] am ham p hp) with ⟨v, hv⟩
    rw [hdrain.2 p hp2, hcongH p hp2, hv]
    simp [mapGetD, mapGet]
  · intro p hp n hn
    have hp2 : p ∈ sortByCmp cmpUnhealthyAsc unhealthy :=
      (sortByCmp_mem _ _ _).mpr hp
    rw [halloc.1 p hp2, hcongU p hp2, hn]
    simp
  · rw [hsumS]
    exact hbounds.1
  · rw [hsumS]
    have hlen : ((unhealthy.map fun p =>
        (calculateCollateralNeeded p minHF).getD 0).length : Int) =
        (unhealthy.length : Int) := by
      simp
    rw [← hlen]
    exact hbounds.2

/-- C2 (shortfall case): with valid, chain-disjoint, duplicate-free inputs
and `totalAvailable < totalNeeded`, every unhealthy chain is allocated
exactly `floor(needed * totalAvailable / totalNeeded)`, the supplies and
the withdrawals each sum to at most `totalAvailable`, and the rounding
shortfall `totalAvailable - sum(supplies)` is at most the number of
unhealthy chains minus one. -/
theorem shortfall_proportional_allocation
    (healthy unhealthy : List AavePosition) (minHF : Int) (nm am : AmountMap)
    (hvH : ∀ p ∈ healthy, Valid p) (hvU : ∀ p ∈ unhealthy, Valid p)
    (hndU : (unhealthy.map AavePosition.chainId).Nodup)
    (hndH : (healthy.map AavePosition.chainId).Nodup)
    (hdisj : ∀ p ∈ healthy, ∀ q ∈ unhealthy, p.chainId ≠ q.chainId)
    (hnm : buildByChain (fun p => calculateCollateralNeeded p minHF) []
      unhealthy = some nm)
    (ham : buildByChain (fun p => calculateMaxWithdrawable p minHF) []
      healthy = some am)
    (hshort : mapSum am < mapSum nm) :
    ∃ w s, optimizeRebalanceDistribution healthy unhealthy minHF =
        some (w, s) ∧
      (∀ p ∈ unhealthy, ∀ n, calculateCollateralNeeded p minHF = some n →
        mapGetD s p.chainId = (n * mapSum am).tdiv (mapSum nm)) ∧
      mapSum s ≤ mapSum am ∧
      mapSum w ≤ mapSum am ∧
      mapSum am - mapSum s ≤ (unhealthy.length : Int) - 1 := by
  rcases shortfall_plan_facts healthy unhealthy minHF nm am hvH hndU hndH
    hnm ham hshort with ⟨w, s, hopt, hwsum, _, hallocs, hssum, hround⟩
  exact ⟨w, s, hopt, hallocs, hssum, le_of_eq hwsum, hround⟩

/-- C10 (implicit, shortfall case): the withdrawals sum to exactly
`totalAvailable` — every healthy chain is drained of its full availability —
so the amount withdrawn is at least (and can strictly exceed) the amount
allocated in `supplies`; the floor-division remainder is withdrawn without
being allocated anywhere. -/
theorem shortfall_full_drain
    (healthy unhealthy : List AavePosition) (minHF : Int) (nm am : AmountMap)
    (hvH : ∀ p ∈ healthy, Valid p) (hvU : ∀ p ∈ unhealthy, Valid p)
    (hndU : (unhealthy.map AavePosition.chainId).Nodup)
    (hndH : (healthy.map AavePosition.chainId).Nodup)
    (hnm : buildByChain (fun p => calculateCollateralNeeded p minHF) []
      unhealthy = some nm)
    (ham : buildByChain (fun p => calculateMaxWithdrawable p minHF) []
      healthy = some am)
    (hshort : mapSum am < mapSum nm) :
    ∃ w s, optimizeRebalanceDistribution healthy unhealthy minHF =
        some (w, s) ∧
      mapSum w = mapSum am ∧
      (∀ p ∈ healthy,
        calculateMaxWithdrawable p minHF = some (mapGetD w p.chainId)) ∧
      mapSum s ≤ mapSum w := by
  rcases shortfall_plan_facts healthy unhealthy minHF nm am hvH hndU hndH
    hnm ham hshort with ⟨w, s, hopt, hwsum, hdrain, _, hssum, _⟩
  exact ⟨w, s, hopt, hwsum, hdrain, by omega⟩

/-! ### The greedy source-to-destination matcher -/

theorem sumBySource_append (l1 l2 : List TransferInstruction) (c : Int) :
    sumBySource (l1 ++ l2) c = sumBySource l1 c + sumBySource l2 c := by
  simp [sumBySource]

theorem sumByDest_append (l1 l2 : List TransferInstruction) (c : Int) :
    sumByDest (l1 ++ l2) c = sumByDest l1 c + sumByDest l2 c := by
  simp [sumByDest]

theorem sumBySource_cons (t : TransferInstruction)
    (l : List TransferInstruction) (c : Int) :
    sumBySource (t :: l) c =
      (if t.sourceChainId = c then t.amount else 0) + sumBySource l c := by
  simp [sumBySource]

theorem sumByDest_cons (t : TransferInstruction)
    (l : List TransferInstruction) (c : Int) :
    sumByDest (t :: l) c =
      (if t.destinationChainId = c then t.amount else 0) + sumByDest l c := by
  simp [sumByDest]

/-- Inner matcher loop invariants: the emitted instructions all target the
current destination with positive amounts from other chains, the remaining
withdrawal budgets decrease by exactly the emitted amounts and never go
negative, and the remaining need decreases by exactly the amount received. -/
theorem matchInner_spec (dc : Int) (hps : List AavePosition) :
    ∀ (acc acc2 : List TransferInstruction) (rw rw2 : AmountMap)
      (need need2 : Int),
      matchInner dc acc rw need hps = (acc2, rw2, need2) →
      (∀ c, 0 ≤ mapGetD rw c) → 0 ≤ need →
      ∃ ni, acc2 = acc ++ ni ∧
        (∀ t ∈ ni, 0 < t.amount ∧ t.sourceChainId ≠ dc ∧
          t.destinationChainId = dc) ∧
        (∀ c, mapGetD rw2 c = mapGetD rw c - sumBySource ni c) ∧
        (∀ c, 0 ≤ mapGetD rw2 c) ∧
        need2 = need - sumByDest ni dc ∧ 0 ≤ need2 ∧
        (∀ c, c ≠ dc → sumByDest ni c = 0) := by
  induction hps with
  | nil =>
    intro acc acc2 rw rw2 need need2 he hrw hneed
    simp only [matchInner, Prod.mk.injEq] at he
    refine ⟨[], by simp [he.1.symm], by simp, ?_, ?_, ?_, ?_, ?_⟩
    · intro c; rw [← he.2.1]; simp [sumBySource]
    · intro c; rw [← he.2.1]; exact hrw c
    · rw [← he.2.2]; simp [sumByDest]
    · rw [← he.2.2]; exact hneed
    · intro c _; simp [sumByDest]
  | cons hp rest ih =>
    intro acc acc2 rw rw2 need need2 he hrw hneed
    by_cases hz : need = 0
    · simp only [matchInner, hz, if_true, Prod.mk.injEq] at he
      rcases he with ⟨h1, h2, h3⟩
      refine ⟨[], by simp [h1.symm], by simp, ?_, ?_, ?_, ?_, ?_⟩
      · intro c; rw [← h2]; simp [sumBySource]
      · intro c; rw [← h2]; exact hrw c
      · rw [← h3]
        simp only [sumByDest, List.map_nil, List.sum_nil]
        omega
      · rw [← h3]
      · intro c _; simp [sumByDest]
    · simp only [matchInner, hz, if_false] at he
      by_cases hsame : hp.chainId = dc
      · rw [if_pos hsame] at he
        exact ih acc acc2 rw rw2 need need2 he hrw hneed
      · rw [if_neg hsame] at he
        by_cases ha : mapGetD rw hp.chainId = 0
        · rw [if_pos ha] at he
          exact ih acc acc2 rw rw2 need need2 he hrw hneed
        · rw [if_neg ha] at he
          have hapos : 0 < mapGetD rw hp.chainId := by
            have := hrw hp.chainId; omega
          have hneedpos : 0 < need := by omega
          have htpos : 0 < (if mapGetD rw hp.chainId < need then
              mapGetD rw hp.chainId else need) := by
            split <;> omega
          rw [if_pos htpos] at he
          set t := if mapGetD rw hp.chainId < need then
            mapGetD rw hp.chainId else need with ht
          have htle : t ≤ mapGetD rw hp.chainId := by
            rw [ht]; split <;> omega
          have htleN : t ≤ need := by
            rw [ht]; split <;> omega
          have hrw2 : ∀ c, 0 ≤ mapGetD
              (mapSet rw hp.chainId (mapGetD rw hp.chainId - t)) c := by
            intro c
            by_cases hc : hp.chainId = c
            · rw [← hc, mapGetD_set_self]; omega
            · rw [mapGetD_set_ne rw hp.chainId _ c hc]; exact hrw c
          rcases ih _ acc2 _ rw2 _ need2 he hrw2 (by omega)
            with ⟨ni2, hacc, hmem, hget, hnn, hneed2, hneed2nn, hother⟩
          have hsd : ∀ c, sumByDest (⟨hp.chainId, dc, t⟩ :: ni2) c =
              (if dc = c then t else 0) + sumByDest ni2 c := by
            intro c; simp [sumByDest]
          have hss : ∀ c, sumBySource (⟨hp.chainId, dc, t⟩ :: ni2) c =
              (if hp.chainId = c then t else 0) + sumBySource ni2 c := by
            intro c; simp [sumBySource]
          refine ⟨⟨hp.chainId, dc, t⟩ :: ni2, ?_, ?_, ?_, hnn, ?_, hneed2nn, ?_⟩
          · rw [hacc]; simp
          · intro u hu
            rcases List.mem_cons.mp hu with h | h
            · rw [h]; exact ⟨htpos, hsame, rfl⟩
            · exact hmem u h
          · intro c
            rw [hget c, hss c]
            by_cases hc : hp.chainId = c
            · rw [← hc, mapGetD_set_self, if_pos rfl]
              omega
            · rw [mapGetD_set_ne rw hp.chainId _ c hc, if_neg hc]
              omega
          · rw [hneed2, hsd dc, if_pos rfl]
            omega
          · intro c hc
            rw [hsd c, if_neg (Ne.symm hc), hother c hc]
            omega

/-- Outer matcher loop invariants: every emitted instruction is a positive
cross-chain transfer, the per-source totals never exceed the withdrawal
budgets and the per-destination totals never exceed the supply targets. -/
theorem matchOuter_spec (healthy : List AavePosition)
    (ups : List AavePosition) :
    ∀ (acc acc2 : List TransferInstruction) (rs rw rs2 rw2 : AmountMap),
      matchOuter healthy acc rs rw ups = (acc2, rs2, rw2) →
      (∀ c, 0 ≤ mapGetD rw c) → (∀ c, 0 ≤ mapGetD rs c) →
      ∃ ni, acc2 = acc ++ ni ∧
        (∀ t ∈ ni, 0 < t.amount ∧
          t.sourceChainId ≠ t.destinationChainId) ∧
        (∀ c, mapGetD rw2 c = mapGetD rw c - sumBySource ni c ∧
          0 ≤ mapGetD rw2 c) ∧
        (∀ c, mapGetD rs2 c = mapGetD rs c - sumByDest ni c ∧
          0 ≤ mapGetD rs2 c) := by
  induction ups with
  | nil =>
    intro acc acc2 rs rw rs2 rw2 he hrw hrs
    simp only [matchOuter, Prod.mk.injEq] at he
    refine ⟨[], by simp [he.1.symm], by simp, ?_, ?_⟩
    · intro c
      rw [← he.2.2]
      exact ⟨by simp [sumBySource], hrw c⟩
    · intro c
      rw [← he.2.1]
      exact ⟨by simp [sumByDest], hrs c⟩
  | cons pos rest ih =>
    intro acc acc2 rs rw rs2 rw2 he hrw hrs
    by_cases hz : mapGetD rs pos.chainId = 0
    · simp only [matchOuter, hz, if_true] at he
      exact ih acc acc2 rs rw rs2 rw2 he hrw hrs
    · simp only [matchOuter, hz, if_false] at he
      rcases hmi : matchInner pos.chainId acc rw (mapGetD rs pos.chainId)
        (sortByCmp cmpHealthyDesc
          (healthy.filter fun p => decide (0 < mapGetD rw p.chainId)))
        with ⟨a1, r1, n1⟩
      rw [hmi] at he
      have hneednn : 0 ≤ mapGetD rs pos.chainId := hrs pos.chainId
      rcases matchInner_spec pos.chainId _ acc a1 rw r1 _ n1 hmi hrw hneednn
        with ⟨ni1, hacc1, hmem1, hget1, hnn1, hn1, hn1nn, hother1⟩
      have hrs2nn : ∀ c, 0 ≤ mapGetD (mapSet rs pos.chainId n1) c := by
        intro c
        by_cases hc : pos.chainId = c
        · rw [← hc, mapGetD_set_self]; exact hn1nn
        · rw [mapGetD_set_ne rs pos.chainId n1 c hc]; exact hrs c
      rcases ih a1 acc2 (mapSet rs pos.chainId n1) r1 rs2 rw2 he hnn1 hrs2nn
        with ⟨ni2, hacc2, hmem2, hgetw, hgets⟩
      refine ⟨ni1 ++ ni2, ?_, ?_, ?_, ?_⟩
      · rw [hacc2, hacc1, List.append_assoc]
      · intro t htm
        rcases List.mem_append.mp htm with h | h
        · rcases hmem1 t h with ⟨h1, h2, h3⟩
          exact ⟨h1, by rw [h3]; exact h2⟩
        · exact hmem2 t h
      · intro c
        rcases hgetw c with ⟨hg, hgn⟩
        refine ⟨?_, hgn⟩
        rw [hg, hget1 c, sumBySource_append]
        omega
      · intro c
        rcases hgets c with ⟨hg, hgn⟩
        refine ⟨?_, hgn⟩
        rw [hg, sumByDest_append]
        by_cases hc : pos.chainId = c
        · rw [← hc, mapGetD_set_self]
          have : sumByDest ni1 pos.chainId =
              mapGetD rs pos.chainId - n1 := by omega
          omega
        · rw [mapGetD_set_ne rs pos.chainId n1 c hc]
          rw [hother1 c (Ne.symm hc)]
          omega

/-- C5: every instruction produced by the greedy matcher is a positive
strictly cross-chain transfer; grouping the instruction amounts by source
never exceeds that source's planned withdrawal total, and grouping by
destination never exceeds that destination's supply target. -/
theorem matching_invariants (healthy unhealthy : List AavePosition)
    (withdrawals supplies : AmountMap)
    (hw : ∀ kv ∈ withdrawals, 0 ≤ kv.2)
    (hs : ∀ kv ∈ supplies, 0 ≤ kv.2) :
    (∀ t ∈ matchTransfers healthy unhealthy withdrawals supplies,
      0 < t.amount ∧ t.sourceChainId ≠ t.destinationChainId) ∧
    (∀ c, sumBySource (matchTransfers healthy unhealthy withdrawals supplies)
      c ≤ mapGetD withdrawals c) ∧
    (∀ c, sumByDest (matchTransfers healthy unhealthy withdrawals supplies)
      c ≤ mapGetD supplies c) := by
  rcases hmo : matchOuter healthy [] supplies withdrawals
    (sortByCmp cmpUnhealthyAsc unhealthy) with ⟨a2, rs2, rw2⟩
  have hmt : matchTransfers healthy unhealthy withdrawals supplies = a2 := by
    simp [matchTransfers, hmo]
  rcases matchOuter_spec healthy _ [] a2 supplies withdrawals rs2 rw2 hmo
    (fun c => mapGetD_nonneg withdrawals c hw)
    (fun c => mapGetD_nonneg supplies c hs)
    with ⟨ni, hacc, hmem, hgetw, hgets⟩
  rw [hmt, hacc]
  simp only [List.nil_append]
  refine ⟨hmem, ?_, ?_⟩
  · intro c
    rcases hgetw c with ⟨hg, hgn⟩
    omega
  · intro c
    rcases hgets c with ⟨hg, hgn⟩
    omega

/-! ### Transfer chains -/

/-- C4 (amended): for a chain whose destinations are all unserved,
duplicate-free and resolvable, and whose carried amount is at most the
total need along the chain, every hop forwards exactly what it received
minus what it consumed, the first hop receives the full carried amount with
each later hop receiving its predecessor's remainder, and the chain ends
with nothing left over (so the final hop consumes its whole remaining
carried amount). -/
theorem chain_conservation_amended
    (unhealthy : List AavePosition) (needs : AmountMap)
    (processed : List Int) (order : List Int) (W : Int)
    (hdisj : ∀ d ∈ order, d ∉ processed)
    (hnd : order.Nodup)
    (hres : ∀ d ∈ order, (unhealthy.find? (fun p => p.chainId = d)).isSome)
    (hneeds : ∀ d ∈ order, 0 ≤ mapGetD needs d)
    (hW0 : 0 ≤ W)
    (hWle : W ≤ (order.map fun d => mapGetD needs d).sum) :
    (∀ h ∈ (runChain unhealthy needs processed W order).1,
      h.forwarded = h.received - h.consumed) ∧
    ChainLinked W (runChain unhealthy needs processed W order).1 ∧
    (runChain unhealthy needs processed W order).2.2 = 0 := by
  induction order generalizing processed W with
  | nil =>
    simp only [List.map_nil, List.sum_nil] at hWle
    have : W = 0 := by omega
    subst this
    exact ⟨by simp [runChain], trivial, rfl⟩
  | cons d rest ih =>
    have hd1 : d ∉ processed := hdisj d (by simp)
    simp only [List.nodup_cons] at hnd
    rcases Option.isSome_iff_exists.mp (hres d (by simp)) with ⟨p, hp⟩
    simp only [List.map_cons, List.sum_cons] at hWle
    have hrestnn : 0 ≤ (rest.map fun e => mapGetD needs e).sum :=
      List.sum_nonneg (by
        intro x hx
        rcases List.mem_map.mp hx with ⟨e, he, rfl⟩
        exact hneeds e (by simp [he]))
    have hdnn : 0 ≤ mapGetD needs d := hneeds d (by simp)
    have hsup : (if W < mapGetD needs d then W else mapGetD needs d) ≤ W := by
      split <;> omega
    have hsupnn : 0 ≤ (if W < mapGetD needs d then W
        else mapGetD needs d) := by
      split <;> omega
    have hremle : W - (if W < mapGetD needs d then W else mapGetD needs d) ≤
        (rest.map fun e => mapGetD needs e).sum := by
      split <;> omega
    have hdisj2 : ∀ e ∈ rest, e ∉ d :: processed := by
      intro e he
      simp only [List.mem_cons]
      push_neg
      constructor
      · intro hc; exact hnd.1 (hc ▸ he)
      · exact hdisj e (by simp [he])
    have hrec := ih (d :: processed)
      (W - (if W < mapGetD needs d then W else mapGetD needs d))
      hdisj2 hnd.2 (fun e he => hres e (by simp [he]))
      (fun e he => hneeds e (by simp [he])) (by omega) hremle
    rcases hrc : runChain unhealthy needs (d :: processed)
        (W - (if W < mapGetD needs d then W else mapGetD needs d)) rest
      with ⟨hops, p2, rf⟩
    rw [hrc] at hrec
    simp only [runChain, hd1, if_false, hp, hrc]
    refine ⟨?_, ?_, hrec.2.2⟩
    · intro h hh
      rcases List.mem_cons.mp hh with h2 | h2
      · rw [h2]
      · exact hrec.1 h h2
    · exact ⟨rfl, hrec.2.1⟩


/-! ### Remaining claim statements -/

/-- C3: the two-chain deficit scenario — healthy chain 1 with collateral
1000 and no debt, unhealthy chain 2 with collateral 100, debt 90 and
threshold 8000 — yields needed 35, available 500, the plan
withdrawals = (1 -> 35), supplies = (2 -> 35), and a single transfer
instruction of 35 from chain 1 to chain 2. -/
theorem two_chain_deficit_scenario :
    calculateCollateralNeeded posB HF12 = some 35 ∧
    calculateMaxWithdrawable posA HF12 = some 500 ∧
    optimizeRebalanceDistribution [posA] [posB] HF12 =
      some ([(1, 35)], [(2, 35)]) ∧
    matchTransfers [posA] [posB] [(1, 35)] [(2, 35)] = [⟨1, 2, 35⟩] := by
  decide

/-- C6 (code-bug evidence): at a position with outstanding debt and a zero
liquidation threshold, the `healthFactor.ts` `calculateMaxWithdrawable`
used by the optimizer divides by zero (a thrown `RangeError`, modelled
`none`) for any minimum ratio, while the guarded `index.ts` variant
returns `0` on the same input as the spec prescribes. -/
theorem max_withdrawable_zero_threshold :
    calculateMaxWithdrawable posZeroThr HF12 = none ∧
    calculateMaxWithdrawableIdx posZeroThr HF12 = 0 := by
  decide

/-- C7: `isPositionUnhealthy` is `false` on the sentinel risk ratio `0`
regardless of the threshold, and otherwise is exactly the comparison
`healthFactor < threshold`. -/
theorem sentinel_healthy_classification (p : AavePosition)
    (threshold : Int) :
    (p.healthFactor = 0 → isPositionUnhealthy p threshold = false) ∧
    (p.healthFactor ≠ 0 →
      (isPositionUnhealthy p threshold = true ↔
        p.healthFactor < threshold)) := by
  constructor
  · intro h
    simp [isPositionUnhealthy, h]
  · intro h
    simp [isPositionUnhealthy, h]

theorem sentinel_healthy_classification_witness :
    isPositionUnhealthy posA HF12 = false ∧
    (isPositionUnhealthy posB HF12 = true ↔ posB.healthFactor < HF12) :=
  ⟨(sentinel_healthy_classification posA HF12).1 (by decide),
   (sentinel_healthy_classification posB HF12).2 (by decide)⟩

/-- C8 counterexample: with one healthy debt-free position and no unhealthy
position, the engine entry point throws
an Error saying no unhealthy positions to rebalance (modelled Except.error)
instead of returning an empty plan. -/
theorem empty_sets_counterexample :
    crossChainRebalancePlan [posA] HF12 =
      Except.error RebalanceError.noUnhealthyPositions := rfl

theorem sufficientWithdrawals_zero (am ws : AmountMap)
    (l : List AavePosition) : sufficientWithdrawals am 0 ws l = ws := by
  cases l <;> simp [sufficientWithdrawals]

theorem shortfallWithdrawals_zero (ra ws : AmountMap)
    (l : List AavePosition) : shortfallWithdrawals ra 0 ws l = ws := by
  cases l <;> simp [shortfallWithdrawals]

theorem shortfallSupplies_zeroA (N : Int) (l : List AavePosition) :
    ∀ rn s, (shortfallSupplies 0 N rn s l).1 = s := by
  induction l with
  | nil => intro rn s; rfl
  | cons pos rest ih =>
    intro rn s
    by_cases hz : mapGetD rn pos.chainId = 0
    · simp [shortfallSupplies, hz, ih]
    · simp [shortfallSupplies, hz, ih]

theorem sufficientSupplies_nonpos (nm : AmountMap) :
    ∀ s, (∀ kv ∈ nm, ¬ 0 < kv.2) → sufficientSupplies s nm = s := by
  induction nm with
  | nil => intro s _; rfl
  | cons kv rest ih =>
    intro s h
    have hkv : ¬ 0 < kv.2 := h kv (by simp)
    simp only [sufficientSupplies, hkv, if_false]
    exact ih s (fun kw hkw => h kw (by simp [hkw]))

/-- C8 (amended): `optimizeRebalanceDistribution` returns empty maps when
either input list is empty (without touching the other list beyond its
availability scan), but the engine entry point
`crossChainRebalanceAavePositions` signals the empty classifications by
throwing before any plan is computed. -/
theorem empty_sets_amended :
    (∀ (positions : List AavePosition) (minHF : Int),
      positions.filter (fun pos => isPositionUnhealthy pos minHF) = [] →
      crossChainRebalancePlan positions minHF =
        Except.error RebalanceError.noUnhealthyPositions) ∧
    (∀ (positions : List AavePosition) (minHF : Int),
      positions.filter (fun pos => isPositionUnhealthy pos minHF) ≠ [] →
      positions.filter (fun pos => !isPositionUnhealthy pos minHF &&
        decide (0 < pos.totalCollateralBase)) = [] →
      crossChainRebalancePlan positions minHF =
        Except.error RebalanceError.noHealthyPositions) ∧
    (∀ (healthy : List AavePosition) (minHF : Int) (am : AmountMap),
      buildByChain (fun p => calculateMaxWithdrawable p minHF) [] healthy =
        some am → 0 ≤ mapSum am →
      optimizeRebalanceDistribution healthy [] minHF = some ([], [])) ∧
    (∀ (unhealthy : List AavePosition) (minHF : Int) (nm : AmountMap),
      buildByChain (fun p => calculateCollateralNeeded p minHF) []
        unhealthy = some nm →
      optimizeRebalanceDistribution [] unhealthy minHF = some ([], [])) := by
  refine ⟨?_, ?_, ?_, ?_⟩
  · intro ps mh h
    simp [crossChainRebalancePlan, h]
  · intro ps mh h1 h2
    simp [crossChainRebalancePlan, h1, h2]
  · intro healthy mh am ham hA
    have heq := optimize_sufficient_eq healthy [] mh [] am rfl ham
      (by have hz0 : mapSum ([] : AmountMap) = 0 := rfl; omega)
    rw [heq]
    have hz : mapSum ([] : AmountMap) = 0 := rfl
    rw [hz, sufficientWithdrawals_zero]
    rfl
  · intro unhealthy mh nm hnm
    have hvals : ∀ kv ∈ nm, 0 ≤ kv.2 :=
      buildByChain_vals_nonneg _ unhealthy
        (fun p _ v hv => calculateCollateralNeeded_nonneg p mh v hv)
        [] nm (by simp) hnm
    have hN : 0 ≤ mapSum nm := mapSum_nonneg nm hvals
    by_cases h : 0 < mapSum nm
    · have heq := optimize_shortfall_eq [] unhealthy mh nm [] hnm rfl
        (by have hz0 : mapSum ([] : AmountMap) = 0 := rfl; omega)
      rw [heq]
      have hz : mapSum ([] : AmountMap) = 0 := rfl
      rw [hz, shortfallWithdrawals_zero, shortfallSupplies_zeroA]
    · have hzero : mapSum nm = 0 := by omega
      have hkvzero : ∀ kv ∈ nm, ¬ 0 < kv.2 := by
        intro kv hkv
        have hmem : kv.2 ∈ nm.map Prod.snd :=
          List.mem_map_of_mem Prod.snd hkv
        have hle : kv.2 ≤ mapSum nm := by
          refine List.single_le_sum ?_ _ hmem
          intro x hx
          rcases List.mem_map.mp hx with ⟨kw, hkw, rfl⟩
          exact hvals kw hkw
        omega
      have heq := optimize_sufficient_eq [] unhealthy mh nm [] hnm rfl
        (by have hz0 : mapSum ([] : AmountMap) = 0 := rfl; omega)
      rw [heq, sufficientSupplies_nonpos nm [] hkvzero, hzero,
        sufficientWithdrawals_zero]

theorem empty_sets_amended_witness :
    crossChainRebalancePlan [posA] HF12 =
      Except.error RebalanceError.noUnhealthyPositions ∧
    optimizeRebalanceDistribution [posA] [] HF12 = some ([], []) ∧
    optimizeRebalanceDistribution [] [posB] HF12 = some ([], []) :=
  ⟨empty_sets_amended.1 [posA] HF12 (by decide),
   empty_sets_amended.2.2.1 [posA] HF12 [(1, 500)] (by decide) (by decide),
   empty_sets_amended.2.2.2 [posB] HF12 [(2, 35)] (by decide)⟩

/-- C9 counterexample: in the voucher-destination worst-first ordering of
`rebalance.ts` (lines 246-254 and 277-285), a destination whose position
carries the sentinel risk ratio `0` sorts to the front of the list — it is
visited first, not last. -/
theorem sentinel_sort_counterexample :
    sortByCmp (cmpVoucherDest [posSent, posFin]) [(2, 50), (1, 40)] =
      [(1, 40), (2, 50)] := by
  decide

/-- C9 (amended): in the optimizer's position orderings — unhealthy
ascending (worst first) and healthy descending (largest headroom first) —
an entry with the sentinel risk ratio `0` sorts after every entry with a
nonzero ratio; in the voucher-destination worst-first ordering, by
contrast, a sentinel destination sorts before every other destination. -/
theorem sentinel_sort_amended (l : List AavePosition)
    (u : List AavePosition) (v : List (Int × Int)) :
    (sortByCmp cmpUnhealthyAsc l).Pairwise
      (fun a b => a.healthFactor = 0 → b.healthFactor = 0) ∧
    (sortByCmp cmpHealthyDesc l).Pairwise
      (fun a b => a.healthFactor = 0 → b.healthFactor = 0) ∧
    (sortByCmp (cmpVoucherDest u) v).Pairwise
      (fun a b => DestSentinel u b → DestSentinel u a) := by
  refine ⟨?_, ?_, ?_⟩
  · refine sortByCmp_late cmpUnhealthyAsc (fun p => p.healthFactor = 0)
      ?_ ?_ l
    · intro x y hx
      simp [cmpUnhealthyAsc, hx]
    · intro x y hx hy
      simp [cmpUnhealthyAsc, hx, hy]
  · refine sortByCmp_late cmpHealthyDesc (fun p => p.healthFactor = 0)
      ?_ ?_ l
    · intro x y hx
      simp [cmpHealthyDesc, hx]
    · intro x y hx hy
      simp [cmpHealthyDesc, hx, hy]
  · refine sortByCmp_early (cmpVoucherDest u) (DestSentinel u) ?_ ?_ v
    · intro x y hx
      rcases hx with ⟨p, hp, hp0⟩
      rcases hfy : u.find? (fun q => q.chainId = y.1) with _ | pb
      · simp [cmpVoucherDest, hp, hfy]
      · simp [cmpVoucherDest, hp, hfy, hp0]
    · intro x y hx hy
      rcases hy with ⟨p, hp, hp0⟩
      rcases hfx : u.find? (fun q => q.chainId = x.1) with _ | px
      · simp [cmpVoucherDest, hfx]
      · have hpx0 : px.healthFactor ≠ 0 := by
          intro hc
          exact hx ⟨px, hfx, hc⟩
        simp [cmpVoucherDest, hfx, hp, hpx0, hp0]

/-- C4 counterexample: from genuine positions, sources 21 and 20 both feed
destination 10; source 21's chain serves it first, so source 20's chain
skips it and ends at destination 11 having received 60, consumed only 40
and stranded a forwarded remainder of 20 with no further hop — the final
hop does not consume its full carried amount. -/
theorem chain_leftover_counterexample :
    transferPipeline [posS1, posS2] [posD, posE] HF12 =
      some ([⟨21, 10, 80⟩, ⟨20, 10, 20⟩, ⟨20, 11, 40⟩],
        [(21, [⟨10, 80, 80, 0⟩]), (20, [⟨11, 60, 40, 20⟩])]) := by
  decide

theorem chain_conservation_witness :
    (runChain [posD, posE] [(10, 100), (11, 40)] [] 140 [10, 11]).2.2 = 0 :=
  (chain_conservation_amended [posD, posE] [(10, 100), (11, 40)] []
    [10, 11] 140 (by decide) (by decide) (by decide) (by decide)
    (by decide) (by decide)).2.2

theorem collateral_conservation_sufficient_witness :
    (optimizeRebalanceDistribution [posA] [posB] HF12).map
      (fun plan => (mapSum plan.1, mapSum plan.2)) = some (35, 35) := by
  rcases collateral_conservation_sufficient [posA] [posB] HF12 [(2, 35)]
    [(1, 500)] (by decide) (by decide) (by decide) (by decide) (by decide)
    (by decide) (by decide) (by decide)
    with ⟨w, s, hopt, _, hs, hw⟩
  rw [hopt]
  have h35 : mapSum [(2, 35)] = 35 := by decide
  simp [hs, hw, h35]

theorem shortfall_proportional_allocation_witness :
    (optimizeRebalanceDistribution [posS3] [posD, posE] HF12).map
      (fun plan => mapGetD plan.2 10) = some 7 := by
  rcases shortfall_proportional_allocation [posS3] [posD, posE] HF12
    [(10, 100), (11, 40)] [(22, 10)] (by decide) (by decide) (by decide)
    (by decide) (by decide) (by decide) (by decide) (by decide)
    with ⟨w, s, hopt, halloc, _, _, _⟩
  rw [hopt]
  have h10 : mapGetD s 10 = 7 := by
    rw [show (10 : Int) = posD.chainId from rfl,
      halloc posD (by decide) 100 (by decide)]
    decide
  simp [h10]

theorem shortfall_full_drain_witness :
    (optimizeRebalanceDistribution [posS3] [posD, posE] HF12).map
      (fun plan => mapSum plan.1) = some 10 := by
  rcases shortfall_full_drain [posS3] [posD, posE] HF12
    [(10, 100), (11, 40)] [(22, 10)] (by decide) (by decide) (by decide)
    (by decide) (by decide) (by decide) (by decide)
    with ⟨w, s, hopt, hwsum, _, _⟩
  rw [hopt]
  have h10 : mapSum [(22, 10)] = 10 := by decide
  simp [hwsum, h10]

theorem matching_invariants_witness :
    sumBySource (matchTransfers [posA] [posB] [(1, 35)] [(2, 35)]) 1 ≤ 35 ∧
    sumByDest (matchTransfers [posA] [posB] [(1, 35)] [(2, 35)]) 2 ≤ 35 := by
  have h := matching_invariants [posA] [posB] [(1, 35)] [(2, 35)]
    (by decide) (by decide)
  constructor
  · have hx := h.2.1 1
    rw [show mapGetD [(1, 35)] 1 = 35 from by decide] at hx
    exact hx
  · have hx := h.2.2 2
    rw [show mapGetD [(2, 35)] 2 = 35 from by decide] at hx
    exact hx


end Reil
